import Mathlib

/-!
# Globs: a ray caster for diffusely lit spheres

A shallow embedding of `Globs.cpp` (classes `Light`, `Material`, `Sphere`,
`Renderer`) and theorems about it.

## Scalars

The program computes with C++ `float` and `double`.  The embedding has two
layers.

* The exact layer (`Sphere.ray_intersect`, `scene_intersect`, `cast_ray`,
  `render`, ...) is generic in a scalar type `F` that is a linearly ordered
  field: every arithmetic operation of the source is the exact field
  operation, and the two `<cmath>` functions the source calls (`sqrtf`, `tan`)
  are parameters of the functions that use them.  Its theorems describe the
  structure of the program (the scan over the spheres, the pixel loop, the
  bytes of the output) and the program under exact arithmetic.

* The floating point layer (`Sphere.ray_intersect_fl`, `scene_intersect_fl`,
  `cast_ray_fl`, `camera_dir_fl`, ...) repeats the arithmetic of the source
  with a rounding function applied after every operation.  `binary32` and
  `binary64` are the roundings to nearest (ties to even) of IEEE 754 on the
  rationals and `sqrt32` is the correctly rounded square root; the exponent is
  unbounded, so overflow, subnormal numbers, infinities and NaN are outside
  the model.  Statements that hold under exact arithmetic only are refuted
  here by evaluating the floating point program, and proved for the runs in
  which the operations concerned have no rounding error, or with an error
  bound.

All definitions are executable (for instance at `F = ℚ`).
-/

namespace Globs

/-! ## geometry.h -/

/-- Modelled from the spec: `geometry.h` is not among the sources; the spec
describes `Vec3f` as a triple of scalars, used as a point, a direction or an
RGB colour, with addition, subtraction, scaling, dot product and
normalization. -/
structure Vec3f (F : Type) where
  x : F
  y : F
  z : F

/-- Modelled from the spec: the default constructor `Vec3f()` of `geometry.h`,
the zero vector. -/
def Vec3f.zero {F : Type} [LinearOrderedField F] : Vec3f F := ⟨0, 0, 0⟩

/-- Modelled from the spec: `operator+` of `geometry.h`, componentwise sum. -/
def Vec3f.add {F : Type} [LinearOrderedField F] (a b : Vec3f F) : Vec3f F :=
  ⟨a.x + b.x, a.y + b.y, a.z + b.z⟩

/-- Modelled from the spec: `operator-` of `geometry.h`, componentwise
difference. -/
def Vec3f.sub {F : Type} [LinearOrderedField F] (a b : Vec3f F) : Vec3f F :=
  ⟨a.x - b.x, a.y - b.y, a.z - b.z⟩

/-- Modelled from the spec: `operator*(Vec3f, float)` of `geometry.h`, scaling
by a scalar. -/
def Vec3f.scale {F : Type} [LinearOrderedField F] (a : Vec3f F) (k : F) : Vec3f F :=
  ⟨a.x * k, a.y * k, a.z * k⟩

/-- Modelled from the spec: `operator*(Vec3f, Vec3f)` of `geometry.h`, the dot
product. -/
def Vec3f.dot {F : Type} [LinearOrderedField F] (a b : Vec3f F) : F :=
  a.x * b.x + a.y * b.y + a.z * b.z

/-- Modelled from the spec: `Vec3f::norm()` of `geometry.h`, the Euclidean
length, the square root of the sum of the squared components. -/
def Vec3f.norm {F : Type} [LinearOrderedField F] (sqrtf : F → F) (a : Vec3f F) : F :=
  sqrtf (a.x * a.x + a.y * a.y + a.z * a.z)

/-- Modelled from the spec: `Vec3f::normalize()` of `geometry.h`, the vector
scaled by the inverse of its length. -/
def Vec3f.normalize {F : Type} [LinearOrderedField F] (sqrtf : F → F) (a : Vec3f F) :
    Vec3f F :=
  a.scale (1 / a.norm sqrtf)

/-- Modelled from the spec: `Vec3f::operator[]` of `geometry.h`, channel `0`,
`1`, `2` of a colour. -/
def Vec3f.get {F : Type} [LinearOrderedField F] (a : Vec3f F) (i : Nat) : F :=
  if i = 0 then a.x else if i = 1 then a.y else a.z

/-! ## The standard library -/

/-- The function `std::max(a, b)` of `<algorithm>`: `(a < b) ? b : a`. -/
def std_max {F : Type} [LinearOrderedField F] (a b : F) : F :=
  if a < b then b else a

/-- The function `std::min(a, b)` of `<algorithm>`: `(b < a) ? b : a`. -/
def std_min {F : Type} [LinearOrderedField F] (a b : F) : F :=
  if b < a then b else a

/-- The value `std::numeric_limits<float>::max()`, `(2 - 2^(-23)) * 2^127`. -/
def FLT_MAX {F : Type} [LinearOrderedField F] : F :=
  340282346638528859811704183484516925440

/-- Conversion of a floating point value to an integer type, which discards
the fractional part (rounds toward zero). -/
def trunc {F : Type} [LinearOrderedField F] [FloorRing F] (v : F) : Int :=
  if 0 ≤ v then Int.floor v else Int.ceil v

/-- The byte that `ofs << (char)v` writes: the truncated value, as the eight
bit pattern of the `char` (a value in `0 .. 255`). -/
def to_char {F : Type} [LinearOrderedField F] [FloorRing F] (v : F) : Nat :=
  (trunc v % 256).toNat

/-! ## Scene entities -/

/-- The class `Light`. -/
structure Light (F : Type) where
  position : Vec3f F
  intensity : F

/-- The class `Material`. -/
structure Material (F : Type) where
  diffuse_color : Vec3f F

/-- The default constructor `Material()`: `diffuse_color()`. -/
def Material.default {F : Type} [LinearOrderedField F] : Material F := ⟨Vec3f.zero⟩

/-- The class `Sphere`. -/
structure Sphere (F : Type) where
  center : Vec3f F
  radius : F
  material : Material F

/-- The method `Sphere::ray_intersect`.  The C++ method returns a `bool` and
writes the distance to the reference parameter `t0`; its only caller reads
`t0` only after a `true` result, so the embedding returns `some t0` for
`true` and `none` for `false`. -/
def Sphere.ray_intersect {F : Type} [LinearOrderedField F] (sqrtf : F → F)
    (s : Sphere F) (orig dir : Vec3f F) : Option F :=
  let L := s.center.sub orig
  let tca := L.dot dir
  let d2 := L.dot L - tca * tca
  if d2 > s.radius * s.radius then none
  else
    let thc := sqrtf (s.radius * s.radius - d2)
    let t0 := tca - thc
    let t1 := tca + thc
    let t0 := if t0 < 0 then t1 else t0
    if t0 < 0 then none else some t0

/-- The local `tca` of `Sphere::ray_intersect`: the projection of
`L = center - orig` onto `dir`. -/
def Sphere.tca {F : Type} [LinearOrderedField F] (s : Sphere F) (orig dir : Vec3f F) : F :=
  (s.center.sub orig).dot dir

/-- The local `d2` of `Sphere::ray_intersect`: `L * L - tca * tca`. -/
def Sphere.d2 {F : Type} [LinearOrderedField F] (s : Sphere F) (orig dir : Vec3f F) : F :=
  (s.center.sub orig).dot (s.center.sub orig) - s.tca orig dir * s.tca orig dir

/-- The local `thc` of `Sphere::ray_intersect`:
`sqrtf(radius * radius - d2)`. -/
def Sphere.thc {F : Type} [LinearOrderedField F] (sqrtf : F → F) (s : Sphere F)
    (orig dir : Vec3f F) : F :=
  sqrtf (s.radius * s.radius - s.d2 orig dir)

/-! ## Renderer -/

/-- The local `spheres_dist` of `Renderer::scene_intersect` together with its
three reference parameters `hit`, `N`, `material`: the state of the scan. -/
structure Scan (F : Type) where
  spheres_dist : F
  hit : Vec3f F
  N : Vec3f F
  material : Material F

/-- One iteration of the loop of `Renderer::scene_intersect`, for the sphere
`s = spheres[i]`. -/
def scene_step {F : Type} [LinearOrderedField F] (sqrtf : F → F) (orig dir : Vec3f F)
    (st : Scan F) (s : Sphere F) : Scan F :=
  match s.ray_intersect sqrtf orig dir with
  | some dist_i =>
    if dist_i < st.spheres_dist then
      let hit := orig.add (dir.scale dist_i)
      { spheres_dist := dist_i
        hit := hit
        N := (hit.sub s.center).normalize sqrtf
        material := s.material }
    else st
  | none => st

/-- The loop of `Renderer::scene_intersect`: the scan of all spheres in index
order, from `spheres_dist = FLT_MAX` and the values the caller passed in
`hit`, `N`, `material`. -/
def scene_scan {F : Type} [LinearOrderedField F] (sqrtf : F → F) (orig dir : Vec3f F)
    (spheres : List (Sphere F)) (hit N : Vec3f F) (material : Material F) : Scan F :=
  spheres.foldl (scene_step sqrtf orig dir) ⟨FLT_MAX, hit, N, material⟩

/-- The method `Renderer::scene_intersect`: the `bool` it returns and the
final values of its reference parameters `hit`, `N`, `material`. -/
def scene_intersect {F : Type} [LinearOrderedField F] (sqrtf : F → F) (orig dir : Vec3f F)
    (spheres : List (Sphere F)) (hit N : Vec3f F) (material : Material F) :
    Bool × Vec3f F × Vec3f F × Material F :=
  let st := scene_scan sqrtf orig dir spheres hit N material
  (decide (st.spheres_dist < 1000), st.hit, st.N, st.material)

/-- What the scan of `Renderer::scene_intersect` has established after the
spheres `l`: either nothing was accepted (the state is the initial one and
every hit is at `FLT_MAX` or beyond), or the state holds the data of the
sphere at some index `i` whose distance is minimal among all hits and
strictly below the distance of every hit at a lower index. -/
def scan_inv {F : Type} [LinearOrderedField F] (sqrtf : F → F) (orig dir : Vec3f F)
    (hit0 N0 : Vec3f F) (mat0 : Material F) (l : List (Sphere F)) (st : Scan F) : Prop :=
  (st.spheres_dist = FLT_MAX ∧ st.hit = hit0 ∧ st.N = N0 ∧ st.material = mat0 ∧
      ∀ (j : Nat) (sj : Sphere F) (e : F), l[j]? = some sj → sj.ray_intersect sqrtf orig dir = some e → FLT_MAX ≤ e) ∨
  (∃ (i : Nat) (si : Sphere F) (d : F), l[i]? = some si ∧ si.ray_intersect sqrtf orig dir = some d ∧
      d < FLT_MAX ∧
      st.spheres_dist = d ∧
      st.hit = orig.add (dir.scale d) ∧
      st.N = ((orig.add (dir.scale d)).sub si.center).normalize sqrtf ∧
      st.material = si.material ∧
      (∀ (j : Nat) (sj : Sphere F) (e : F), l[j]? = some sj → sj.ray_intersect sqrtf orig dir = some e → d ≤ e) ∧
      (∀ (j : Nat) (sj : Sphere F) (e : F), j < i → l[j]? = some sj → sj.ray_intersect sqrtf orig dir = some e → d < e))

/-- The loop of `Renderer::cast_ray` over the lights: the final value of
`diffuse_light_intensity`, started at `0`. -/
def diffuse_light_intensity {F : Type} [LinearOrderedField F] (sqrtf : F → F)
    (lights : List (Light F)) (point N : Vec3f F) : F :=
  lights.foldl
    (fun acc l =>
      let light_dir := (l.position.sub point).normalize sqrtf
      acc + l.intensity * std_max 0 (light_dir.dot N))
    0

/-- The background colour `Vec3f(1.00, 0.30, 0.20)` of `Renderer::cast_ray`. -/
def background {F : Type} [LinearOrderedField F] : Vec3f F := ⟨1, 3 / 10, 1 / 5⟩

/-- The method `Renderer::cast_ray`. -/
def cast_ray {F : Type} [LinearOrderedField F] (sqrtf : F → F) (orig dir : Vec3f F)
    (spheres : List (Sphere F)) (lights : List (Light F)) : Vec3f F :=
  match scene_intersect sqrtf orig dir spheres Vec3f.zero Vec3f.zero Material.default with
  | (false, _, _, _) => background
  | (true, point, N, material) =>
    material.diffuse_color.scale (diffuse_light_intensity sqrtf lights point N)

/-- The constant `width` of `Renderer::render`. -/
def width : Nat := 1050

/-- The constant `height` of `Renderer::render`. -/
def height : Nat := 750

/-- The constant `fov` of `Renderer::render`. -/
def fov {F : Type} [LinearOrderedField F] : F := 1

/-- The vector `Vec3f(dir_x, dir_y, dir_z)` that `Renderer::render` builds for
the pixel in column `i` and row `j`. -/
def camera_dir {F : Type} [LinearOrderedField F] (tan : F → F) (i j : Nat) : Vec3f F :=
  let dir_x := ((i : F) + 1 / 2) - (width : F) / 2
  let dir_y := -((j : F) + 1 / 2) + (height : F) / 2
  let dir_z := -(height : F) / (2 * tan (fov / 2))
  ⟨dir_x, dir_y, dir_z⟩

/-- The value `Renderer::render` stores in `framebuffer[i + j * width]`. -/
def pixel_color {F : Type} [LinearOrderedField F] (sqrtf tan : F → F)
    (spheres : List (Sphere F)) (lights : List (Light F)) (i j : Nat) : Vec3f F :=
  cast_ray sqrtf Vec3f.zero ((camera_dir tan i j).normalize sqrtf) spheres lights

/-- The byte `Renderer::render` writes for a framebuffer channel value `x`:
`(char)(255 * std::max(0.f, std::min(1.f, x)))`. -/
def channel_byte {F : Type} [LinearOrderedField F] [FloorRing F] (x : F) : Nat :=
  to_char (255 * std_max 0 (std_min 1 x))

/-- The assignments `framebuffer[i + j * w] = f i j` of the pixel loop of
`Renderer::render`, as pairs of index and value in the order the loop
performs them: rows `j = 0 .. h - 1`, and in each row the columns
`i = 0 .. w - 1`. -/
def pixel_writes {α : Type} (w h : Nat) (f : Nat → Nat → α) : List (Nat × α) :=
  (List.range h).flatMap (fun j => (List.range w).map (fun i => (i + j * w, f i j)))

/-- The vector `fb` after the assignments `fb[k] = v` for the pairs `(k, v)`
of `ws`, performed in order. -/
def apply_writes {α : Type} (fb : List α) (ws : List (Nat × α)) : List α :=
  ws.foldl (fun fb p => fb.set p.1 p.2) fb

/-- The vector `framebuffer` of `Renderer::render` after the pixel loop: it is
created with `width * height` default elements and every pixel assigns the
result of `cast_ray` to its slot. -/
def framebuffer {F : Type} [LinearOrderedField F] (sqrtf tan : F → F)
    (spheres : List (Sphere F)) (lights : List (Light F)) : List (Vec3f F) :=
  apply_writes (List.replicate (width * height) Vec3f.zero)
    (pixel_writes width height (pixel_color sqrtf tan spheres lights))

/-- The bytes of the header `"P6\n" << width << " " << height << "\n255\n"`
that `Renderer::render` writes first. -/
def ppm_header : List Nat :=
  ("P6\n" ++ toString width ++ " " ++ toString height ++ "\n255\n").toList.map Char.toNat

/-- The bytes of the output loop of `Renderer::render`: for
`i = 0 .. height * width - 1` and `j = 0 .. 2` the byte of
`framebuffer[i][j]`. -/
def ppm_body {F : Type} [LinearOrderedField F] [FloorRing F] (fb : List (Vec3f F)) :
    List Nat :=
  (List.range (height * width)).flatMap
    (fun i => (List.range 3).map (fun j => channel_byte ((fb.getD i Vec3f.zero).get j)))

/-- The byte sequence `Renderer::render` writes to `./picture.ppm`. -/
def render {F : Type} [LinearOrderedField F] [FloorRing F] (sqrtf tan : F → F)
    (spheres : List (Sphere F)) (lights : List (Light F)) : List Nat :=
  ppm_header ++ ppm_body (framebuffer sqrtf tan spheres lights)

/-! ## main -/

/-- The material `pink` of `main`. -/
def pink {F : Type} [LinearOrderedField F] : Material F := ⟨⟨1, 1 / 2, 3 / 4⟩⟩

/-- The material `blue` of `main`. -/
def blue {F : Type} [LinearOrderedField F] : Material F := ⟨⟨1 / 5, 3 / 10, 7 / 10⟩⟩

/-- The first sphere of `main`: `Sphere(Vec3f(5, 0, -50), 6, pink)`. -/
def pink_sphere {F : Type} [LinearOrderedField F] : Sphere F := ⟨⟨5, 0, -50⟩, 6, pink⟩

/-- The second sphere of `main`: `Sphere(Vec3f(-10, 5, -28), 5, blue)`. -/
def blue_sphere {F : Type} [LinearOrderedField F] : Sphere F := ⟨⟨-10, 5, -28⟩, 5, blue⟩

/-- The light of `main`: `Light(Vec3f(0, -20, 0), 2.0)`. -/
def main_light {F : Type} [LinearOrderedField F] : Light F := ⟨⟨0, -20, 0⟩, 2⟩

/-! ## Binary floating point arithmetic -/

/-- Rounding of a rational number to the nearest integer, a tie going to the
even integer. -/
def round_even (q : ℚ) : ℤ :=
  let f := Int.floor q
  let r := q - f
  if r < 1 / 2 then f else if 1 / 2 < r then f + 1 else if f % 2 = 0 then f else f + 1

/-- The number of binary digits of `n`, computed with `fuel ≥ n` steps. -/
def bit_length : Nat → Nat → Nat
  | 0, _ => 0
  | fuel + 1, n => if n = 0 then 0 else bit_length fuel (n / 2) + 1

/-- The binary exponent of a rational number `q ≠ 0`: the integer `e` with
`2 ^ e ≤ |q| < 2 ^ (e + 1)`. -/
def ilog2 (q : ℚ) : ℤ :=
  let e : ℤ := (bit_length q.num.natAbs q.num.natAbs : ℤ) - (bit_length q.den q.den : ℤ)
  if (2 : ℚ) ^ e ≤ |q| then e else e - 1

/-- Rounding to the nearest binary floating point number with a significand
of `p` bits, a tie going to the even significand (the IEEE 754 default
rounding).  The exponent range is unbounded: overflow to infinity, subnormal
numbers and NaN are not modelled. -/
def round_to (p : Nat) (q : ℚ) : ℚ :=
  if q = 0 then 0
  else
    (round_even (q / 2 ^ (ilog2 q - ((p : ℤ) - 1))) : ℚ) * 2 ^ (ilog2 q - ((p : ℤ) - 1))

/-- Rounding to C++ `float` (IEEE 754 binary32, 24 bit significand): the
result of every `float` operation is the rounded exact result. -/
def binary32 (q : ℚ) : ℚ := round_to 24 q

/-- Rounding to C++ `double` (IEEE 754 binary64, 53 bit significand). -/
def binary64 (q : ℚ) : ℚ := round_to 53 q

/-- The integer square root by bisection on the binary digits: with
`r * r ≤ n < (r + 2 ^ k) * (r + 2 ^ k)` it returns the `m` with
`m * m ≤ n < (m + 1) * (m + 1)`. -/
def isqrt_bits : Nat → Nat → Nat → Nat
  | 0, _, r => r
  | k + 1, n, r => if (r + 2 ^ k) * (r + 2 ^ k) ≤ n then isqrt_bits k n (r + 2 ^ k)
    else isqrt_bits k n r

/-- The integer square root of `n`. -/
def isqrt (n : Nat) : Nat := isqrt_bits (bit_length n n) n 0

/-- The correctly rounded square root with a significand of `p` bits: the
floating point number nearest to the square root of `q` (ties to even); `0`
for `q ≤ 0`. -/
def sqrt_to (p : Nat) (q : ℚ) : ℚ :=
  if q ≤ 0 then 0
  else
    let ulp : ℚ := 2 ^ (ilog2 q / 2 - ((p : ℤ) - 1))
    let m : Nat := isqrt (Int.toNat (Int.floor (q / (ulp * ulp))))
    let mid : ℚ := ((m : ℚ) + 1 / 2) * ulp
    if q < mid * mid then (m : ℚ) * ulp
    else if mid * mid < q then ((m : ℚ) + 1) * ulp
    else if m % 2 = 0 then (m : ℚ) * ulp
    else ((m : ℚ) + 1) * ulp

/-- The function `sqrtf` of `<cmath>` on `float`: the correctly rounded square
root in binary32. -/
def sqrt32 (q : ℚ) : ℚ := sqrt_to 24 q

/-! ## The program in floating point arithmetic

The definitions of this section are the definitions of the program with the
result of every arithmetic operation passed through a rounding function
`rnd`.  With `rnd = binary32` and `sqrtf = sqrt32` at `F = ℚ` they compute
what the program computes in `float`, each operation rounded on its own (no
fused multiply-add, no intermediate of higher precision); with `rnd = id`
they are the definitions in exact arithmetic above.  The scalars of the scene
are arguments: a run in `float` is a run on binary32 numbers. -/

/-- Modelled from the spec: `operator+` of `geometry.h` in floating point,
each component sum rounded. -/
def Vec3f.add_fl {F : Type} [LinearOrderedField F] (rnd : F → F) (a b : Vec3f F) : Vec3f F :=
  ⟨rnd (a.x + b.x), rnd (a.y + b.y), rnd (a.z + b.z)⟩

/-- Modelled from the spec: `operator-` of `geometry.h` in floating point,
each component difference rounded. -/
def Vec3f.sub_fl {F : Type} [LinearOrderedField F] (rnd : F → F) (a b : Vec3f F) : Vec3f F :=
  ⟨rnd (a.x - b.x), rnd (a.y - b.y), rnd (a.z - b.z)⟩

/-- Modelled from the spec: `operator*(Vec3f, float)` of `geometry.h` in
floating point, each component product rounded. -/
def Vec3f.scale_fl {F : Type} [LinearOrderedField F] (rnd : F → F) (a : Vec3f F) (k : F) :
    Vec3f F :=
  ⟨rnd (a.x * k), rnd (a.y * k), rnd (a.z * k)⟩

/-- Modelled from the spec: the dot product of `geometry.h` in floating point:
the three products and the two sums are rounded, the products added from the
first component to the last. -/
def Vec3f.dot_fl {F : Type} [LinearOrderedField F] (rnd : F → F) (a b : Vec3f F) : F :=
  rnd (rnd (rnd (a.x * b.x) + rnd (a.y * b.y)) + rnd (a.z * b.z))

/-- Modelled from the spec: `Vec3f::norm()` of `geometry.h` in floating point:
`sqrtf` of the rounded sum of the rounded squares. -/
def Vec3f.norm_fl {F : Type} [LinearOrderedField F] (rnd sqrtf : F → F) (a : Vec3f F) : F :=
  sqrtf (a.dot_fl rnd a)

/-- Modelled from the spec: `Vec3f::normalize()` of `geometry.h` in floating
point: the vector scaled by the rounded quotient `1 / norm()`. -/
def Vec3f.normalize_fl {F : Type} [LinearOrderedField F] (rnd sqrtf : F → F) (a : Vec3f F) :
    Vec3f F :=
  a.scale_fl rnd (rnd (1 / a.norm_fl rnd sqrtf))

/-- The method `Sphere::ray_intersect` in floating point arithmetic. -/
def Sphere.ray_intersect_fl {F : Type} [LinearOrderedField F] (rnd sqrtf : F → F)
    (s : Sphere F) (orig dir : Vec3f F) : Option F :=
  let L := s.center.sub_fl rnd orig
  let tca := L.dot_fl rnd dir
  let d2 := rnd (L.dot_fl rnd L - rnd (tca * tca))
  if d2 > rnd (s.radius * s.radius) then none
  else
    let thc := sqrtf (rnd (rnd (s.radius * s.radius) - d2))
    let t0 := rnd (tca - thc)
    let t1 := rnd (tca + thc)
    let t0 := if t0 < 0 then t1 else t0
    if t0 < 0 then none else some t0

/-- One iteration of the loop of `Renderer::scene_intersect` in floating point
arithmetic. -/
def scene_step_fl {F : Type} [LinearOrderedField F] (rnd sqrtf : F → F) (orig dir : Vec3f F)
    (st : Scan F) (s : Sphere F) : Scan F :=
  match s.ray_intersect_fl rnd sqrtf orig dir with
  | some dist_i =>
    if dist_i < st.spheres_dist then
      let hit := orig.add_fl rnd (dir.scale_fl rnd dist_i)
      { spheres_dist := dist_i
        hit := hit
        N := (hit.sub_fl rnd s.center).normalize_fl rnd sqrtf
        material := s.material }
    else st
  | none => st

/-- The loop of `Renderer::scene_intersect` in floating point arithmetic. -/
def scene_scan_fl {F : Type} [LinearOrderedField F] (rnd sqrtf : F → F) (orig dir : Vec3f F)
    (spheres : List (Sphere F)) (hit N : Vec3f F) (material : Material F) : Scan F :=
  spheres.foldl (scene_step_fl rnd sqrtf orig dir) ⟨FLT_MAX, hit, N, material⟩

/-- The method `Renderer::scene_intersect` in floating point arithmetic. -/
def scene_intersect_fl {F : Type} [LinearOrderedField F] (rnd sqrtf : F → F)
    (orig dir : Vec3f F) (spheres : List (Sphere F)) (hit N : Vec3f F)
    (material : Material F) : Bool × Vec3f F × Vec3f F × Material F :=
  let st := scene_scan_fl rnd sqrtf orig dir spheres hit N material
  (decide (st.spheres_dist < 1000), st.hit, st.N, st.material)

/-- The loop of `Renderer::cast_ray` over the lights in floating point
arithmetic: each product and each addition to `diffuse_light_intensity` is
rounded. -/
def diffuse_light_intensity_fl {F : Type} [LinearOrderedField F] (rnd sqrtf : F → F)
    (lights : List (Light F)) (point N : Vec3f F) : F :=
  lights.foldl
    (fun acc l =>
      let light_dir := (l.position.sub_fl rnd point).normalize_fl rnd sqrtf
      rnd (acc + rnd (l.intensity * std_max 0 (light_dir.dot_fl rnd N))))
    0

/-- The background colour `Vec3f(1.00, 0.30, 0.20)` of `Renderer::cast_ray` in
floating point arithmetic: the decimal constants converted to `float`. -/
def background_fl {F : Type} [LinearOrderedField F] (rnd : F → F) : Vec3f F :=
  ⟨rnd 1, rnd (3 / 10), rnd (1 / 5)⟩

/-- The method `Renderer::cast_ray` in floating point arithmetic. -/
def cast_ray_fl {F : Type} [LinearOrderedField F] (rnd sqrtf : F → F) (orig dir : Vec3f F)
    (spheres : List (Sphere F)) (lights : List (Light F)) : Vec3f F :=
  match scene_intersect_fl rnd sqrtf orig dir spheres Vec3f.zero Vec3f.zero
    Material.default with
  | (false, _, _, _) => background_fl rnd
  | (true, point, N, material) =>
    material.diffuse_color.scale_fl rnd (diffuse_light_intensity_fl rnd sqrtf lights point N)

/-- The vector `Vec3f(dir_x, dir_y, dir_z)` of `Renderer::render` in floating
point arithmetic: the three expressions are evaluated in `double` (`rnd64`)
and the results converted to `float` (`rnd32`); `tan` is the function of
`<cmath>` on `double`. -/
def camera_dir_fl {F : Type} [LinearOrderedField F] (rnd32 rnd64 tan : F → F) (i j : Nat) :
    Vec3f F :=
  let dir_x := rnd32 (rnd64 (rnd64 ((i : F) + 1 / 2) - rnd64 ((width : F) / 2)))
  let dir_y := rnd32 (rnd64 (-rnd64 ((j : F) + 1 / 2) + rnd64 ((height : F) / 2)))
  let dir_z := rnd32 (rnd64 (-(height : F) / rnd64 (2 * tan (rnd64 (fov / 2)))))
  ⟨dir_x, dir_y, dir_z⟩

/-! ## Runs without rounding error

The predicates of this section say that the floating point operations of a
run return the exact results.  They hold, for instance, for small integer
coordinates. -/

/-- The term that the loop of `Renderer::cast_ray` adds to
`diffuse_light_intensity` for the light `l`, in floating point arithmetic. -/
def light_term_fl {F : Type} [LinearOrderedField F] (rnd sqrtf : F → F) (point N : Vec3f F)
    (l : Light F) : F :=
  rnd (l.intensity
    * std_max 0 (((l.position.sub_fl rnd point).normalize_fl rnd sqrtf).dot_fl rnd N))

/-- The additions `acc + f l` of an accumulation over the lights, started at
`acc`, have no rounding error. -/
def accumulate_exact {F : Type} [LinearOrderedField F] (rnd : F → F) (f : Light F → F) :
    F → List (Light F) → Prop
  | _, [] => True
  | acc, l :: ls => rnd (acc + f l) = acc + f l ∧ accumulate_exact rnd f (acc + f l) ls

/-- The value `Renderer::render` stores in `framebuffer[i + j * width]`, in
floating point arithmetic. -/
def pixel_color_fl {F : Type} [LinearOrderedField F] (rnd32 rnd64 sqrtf tan : F → F)
    (spheres : List (Sphere F)) (lights : List (Light F)) (i j : Nat) : Vec3f F :=
  cast_ray_fl rnd32 sqrtf Vec3f.zero
    ((camera_dir_fl rnd32 rnd64 tan i j).normalize_fl rnd32 sqrtf) spheres lights

/-! ## Sphere::ray_intersect -/

/-- The body of `Sphere::ray_intersect` in terms of its locals `tca`, `d2`
and `thc`. -/
theorem ray_intersect_eq {F : Type} [LinearOrderedField F] (sqrtf : F → F) (s : Sphere F)
    (orig dir : Vec3f F) :
    s.ray_intersect sqrtf orig dir =
      if s.d2 orig dir > s.radius * s.radius then none
      else if s.tca orig dir - s.thc sqrtf orig dir < 0 then
        (if s.tca orig dir + s.thc sqrtf orig dir < 0 then none
         else some (s.tca orig dir + s.thc sqrtf orig dir))
      else some (s.tca orig dir - s.thc sqrtf orig dir) := by
  unfold Sphere.ray_intersect Sphere.thc Sphere.d2 Sphere.tca
  simp only
  split_ifs <;> rfl

/-- The half chord `thc` is non-negative and its square is `radius² - d2`
whenever the ray line meets the sphere. -/
theorem thc_spec (s : Sphere ℝ) (orig dir : Vec3f ℝ)
    (h : s.d2 orig dir ≤ s.radius * s.radius) :
    0 ≤ s.thc Real.sqrt orig dir ∧
      s.thc Real.sqrt orig dir ^ 2 = s.radius * s.radius - s.d2 orig dir := by
  unfold Sphere.thc
  exact ⟨Real.sqrt_nonneg _, Real.sq_sqrt (by linarith)⟩

/-! ## Renderer::scene_intersect -/

/-- An element of `l ++ [s]` is an element of `l` at the same index, or is
`s` at index `l.length`. -/
theorem getElem?_snoc_cases {α : Type} (l : List α) (s x : α) (j : Nat)
    (h : (l ++ [s])[j]? = some x) : l[j]? = some x ∨ (j = l.length ∧ x = s) := by
  by_cases hj : j < l.length
  · left
    rw [List.getElem?_append_left hj] at h
    exact h
  · right
    rw [List.getElem?_append_right (not_lt.mp hj)] at h
    have hlt : j - l.length < 1 := by
      by_contra hge
      rw [List.getElem?_eq_none (by simp only [List.length_singleton]; omega)] at h
      cases h
    have h0 : j - l.length = 0 := by omega
    rw [h0] at h
    simp only [List.getElem?_cons_zero, Option.some.injEq] at h
    exact ⟨by omega, h.symm⟩

/-- An element of `l` keeps its index in `l ++ [s]`. -/
theorem getElem?_snoc_of_some {α : Type} (l : List α) (s x : α) (j : Nat)
    (h : l[j]? = some x) : (l ++ [s])[j]? = some x ∧ j < l.length := by
  have hj : j < l.length := by
    by_contra hge
    rw [List.getElem?_eq_none (not_lt.mp hge)] at h
    cases h
  exact ⟨by rw [List.getElem?_append_left hj]; exact h, hj⟩

/-- One iteration of the loop keeps `scan_inv`. -/
theorem scan_inv_step {F : Type} [LinearOrderedField F] (sqrtf : F → F) (orig dir : Vec3f F)
    (hit0 N0 : Vec3f F) (mat0 : Material F) (l : List (Sphere F)) (st : Scan F)
    (s : Sphere F) (h : scan_inv sqrtf orig dir hit0 N0 mat0 l st) :
    scan_inv sqrtf orig dir hit0 N0 mat0 (l ++ [s]) (scene_step sqrtf orig dir st s) := by
  have hlast : (l ++ [s])[l.length]? = some s := by
    rw [List.getElem?_append_right (le_refl _)]; simp
  unfold scan_inv at h ⊢
  unfold scene_step
  cases hres : s.ray_intersect sqrtf orig dir with
  | none =>
    simp only
    rcases h with ⟨h1, h2, h3, h4, h5⟩ | ⟨i, si, d, hi, hd, hlt, h1, h2, h3, h4, h5, h6⟩
    · left
      refine ⟨h1, h2, h3, h4, ?_⟩
      intro j sj e hj he
      rcases getElem?_snoc_cases l s sj j hj with hj1 | ⟨_, hj2⟩
      · exact h5 j sj e hj1 he
      · rw [hj2, hres] at he; cases he
    · right
      refine ⟨i, si, d, (getElem?_snoc_of_some l s si i hi).1, hd, hlt, h1, h2, h3, h4, ?_, ?_⟩
      · intro j sj e hj he
        rcases getElem?_snoc_cases l s sj j hj with hj1 | ⟨_, hj2⟩
        · exact h5 j sj e hj1 he
        · rw [hj2, hres] at he; cases he
      · intro j sj e hji hj he
        rcases getElem?_snoc_cases l s sj j hj with hj1 | ⟨_, hj2⟩
        · exact h6 j sj e hji hj1 he
        · rw [hj2, hres] at he; cases he
  | some dist_i =>
    simp only
    by_cases hlt : dist_i < st.spheres_dist
    · rw [if_pos hlt]
      right
      have hmax : dist_i < FLT_MAX := by
        rcases h with ⟨h1, _⟩ | ⟨i, si, d, _, _, hdlt, h1, _⟩
        · rw [h1] at hlt; exact hlt
        · rw [h1] at hlt; exact lt_trans hlt hdlt
      refine ⟨l.length, s, dist_i, hlast, hres, hmax, rfl, rfl, rfl, rfl, ?_, ?_⟩
      · intro j sj e hj he
        rcases getElem?_snoc_cases l s sj j hj with hj1 | ⟨_, hj2⟩
        · rcases h with ⟨h1, _, _, _, h5⟩ | ⟨i, si, d, _, _, _, h1, _, _, _, h5, _⟩
          · rw [h1] at hlt
            exact le_trans (le_of_lt hlt) (h5 j sj e hj1 he)
          · rw [h1] at hlt
            exact le_trans (le_of_lt hlt) (h5 j sj e hj1 he)
        · rw [hj2, hres] at he
          cases he
          exact le_refl _
      · intro j sj e hjl hj he
        rcases getElem?_snoc_cases l s sj j hj with hj1 | ⟨hj2, _⟩
        · rcases h with ⟨h1, _, _, _, h5⟩ | ⟨i, si, d, _, _, _, h1, _, _, _, h5, _⟩
          · rw [h1] at hlt
            exact lt_of_lt_of_le hlt (h5 j sj e hj1 he)
          · rw [h1] at hlt
            exact lt_of_lt_of_le hlt (h5 j sj e hj1 he)
        · omega
    · rw [if_neg hlt]
      have hge : st.spheres_dist ≤ dist_i := not_lt.mp hlt
      rcases h with ⟨h1, h2, h3, h4, h5⟩ | ⟨i, si, d, hi, hd, hdlt, h1, h2, h3, h4, h5, h6⟩
      · left
        refine ⟨h1, h2, h3, h4, ?_⟩
        intro j sj e hj he
        rcases getElem?_snoc_cases l s sj j hj with hj1 | ⟨_, hj2⟩
        · exact h5 j sj e hj1 he
        · rw [hj2, hres] at he
          cases he
          rw [← h1]; exact hge
      · right
        refine ⟨i, si, d, (getElem?_snoc_of_some l s si i hi).1, hd, hdlt, h1, h2, h3, h4, ?_, ?_⟩
        · intro j sj e hj he
          rcases getElem?_snoc_cases l s sj j hj with hj1 | ⟨_, hj2⟩
          · exact h5 j sj e hj1 he
          · rw [hj2, hres] at he
            cases he
            rw [← h1]; exact hge
        · intro j sj e hji hj he
          rcases getElem?_snoc_cases l s sj j hj with hj1 | ⟨hj2, _⟩
          · exact h6 j sj e hji hj1 he
          · have := (getElem?_snoc_of_some l s si i hi).2
            omega

/-- The scan of `Renderer::scene_intersect` establishes `scan_inv` for the
whole sphere list. -/
theorem scan_inv_scan {F : Type} [LinearOrderedField F] (sqrtf : F → F) (orig dir : Vec3f F)
    (hit0 N0 : Vec3f F) (mat0 : Material F) (spheres : List (Sphere F)) :
    scan_inv sqrtf orig dir hit0 N0 mat0 spheres
      (scene_scan sqrtf orig dir spheres hit0 N0 mat0) := by
  unfold scene_scan
  induction spheres using List.reverseRecOn with
  | nil =>
    unfold scan_inv
    left
    refine ⟨rfl, rfl, rfl, rfl, ?_⟩
    intro j sj e hj
    simp at hj
  | append_singleton l s ih =>
    rw [List.foldl_append]
    exact scan_inv_step sqrtf orig dir hit0 N0 mat0 l _ s ih

/-- The horizon `1000` is below `FLT_MAX`. -/
theorem horizon_lt_FLT_MAX {F : Type} [LinearOrderedField F] : (1000 : F) < FLT_MAX := by
  unfold FLT_MAX
  norm_num

/-- C2: when `Renderer::scene_intersect` returns `true`, the hit point,
normal and material it returns are those of a sphere at some index `i` that
the ray hits at a distance `d` which is smallest among the distances of all
spheres the ray hits, and every sphere at a lower index that the ray hits is
hit at a strictly larger distance. -/
theorem scene_intersect_nearest {F : Type} [LinearOrderedField F] (sqrtf : F → F)
    (orig dir : Vec3f F) (spheres : List (Sphere F)) (hit0 N0 : Vec3f F) (mat0 : Material F)
    (hit N : Vec3f F) (mat : Material F)
    (h : scene_intersect sqrtf orig dir spheres hit0 N0 mat0 = (true, hit, N, mat)) :
    ∃ (i : Nat) (si : Sphere F) (d : F), spheres[i]? = some si ∧ si.ray_intersect sqrtf orig dir = some d ∧
      hit = orig.add (dir.scale d) ∧
      N = (hit.sub si.center).normalize sqrtf ∧
      mat = si.material ∧
      (∀ (j : Nat) (sj : Sphere F) (e : F), spheres[j]? = some sj → sj.ray_intersect sqrtf orig dir = some e → d ≤ e) ∧
      (∀ (j : Nat) (sj : Sphere F) (e : F), j < i → spheres[j]? = some sj →
        sj.ray_intersect sqrtf orig dir = some e → d < e) := by
  unfold scene_intersect at h
  simp only [Prod.mk.injEq, decide_eq_true_eq] at h
  obtain ⟨hlt, hhit, hN, hmat⟩ := h
  have hinv := scan_inv_scan sqrtf orig dir hit0 N0 mat0 spheres
  unfold scan_inv at hinv
  rcases hinv with
    ⟨h1, _⟩ | ⟨i, si, d, hi, hd, _, h1, h2, h3, h4, h5, h6⟩
  · rw [h1] at hlt
    exact absurd hlt (not_lt.mpr (le_of_lt horizon_lt_FLT_MAX))
  · refine ⟨i, si, d, hi, hd, ?_, ?_, ?_, h5, h6⟩
    · rw [← hhit, h2]
    · rw [← hN, ← hhit, h2, h3]
    · rw [← hmat, h4]

/-- An iteration for a sphere hit at a distance below `spheres_dist`
replaces the state by the data of that sphere. -/
theorem scene_step_hit {F : Type} [LinearOrderedField F] (sqrtf : F → F) (orig dir : Vec3f F)
    (st : Scan F) (s : Sphere F) (d : F) (hd : s.ray_intersect sqrtf orig dir = some d)
    (hlt : d < st.spheres_dist) :
    scene_step sqrtf orig dir st s =
      ⟨d, orig.add (dir.scale d), ((orig.add (dir.scale d)).sub s.center).normalize sqrtf,
        s.material⟩ := by
  unfold scene_step
  rw [hd]
  simp only
  rw [if_pos hlt]

/-- An iteration for a sphere hit at a distance not below `spheres_dist`
leaves the state as it is. -/
theorem scene_step_far {F : Type} [LinearOrderedField F] (sqrtf : F → F) (orig dir : Vec3f F)
    (st : Scan F) (s : Sphere F) (d : F) (hd : s.ray_intersect sqrtf orig dir = some d)
    (hge : st.spheres_dist ≤ d) :
    scene_step sqrtf orig dir st s = st := by
  unfold scene_step
  rw [hd]
  simp only
  rw [if_neg (not_lt.mpr hge)]

/-- An iteration for a sphere the ray misses leaves the state as it is. -/
theorem scene_step_miss {F : Type} [LinearOrderedField F] (sqrtf : F → F) (orig dir : Vec3f F)
    (st : Scan F) (s : Sphere F) (hd : s.ray_intersect sqrtf orig dir = none) :
    scene_step sqrtf orig dir st s = st := by
  unfold scene_step
  rw [hd]

/-- A ray down the negative z axis hits the unit sphere centred at
`(0, 0, -5)` at distance `4`. -/
theorem ray_intersect_demo_near :
    (⟨⟨0, 0, -5⟩, 1, ⟨⟨1, 0, 0⟩⟩⟩ : Sphere ℝ).ray_intersect Real.sqrt ⟨0, 0, 0⟩ ⟨0, 0, -1⟩
      = some 4 := by
  norm_num [Sphere.ray_intersect, Vec3f.sub, Vec3f.dot]

/-- A ray down the negative z axis hits the unit sphere centred at
`(0, 0, -10)` at distance `9`. -/
theorem ray_intersect_demo_far :
    (⟨⟨0, 0, -10⟩, 1, ⟨⟨0, 1, 0⟩⟩⟩ : Sphere ℝ).ray_intersect Real.sqrt ⟨0, 0, 0⟩ ⟨0, 0, -1⟩
      = some 9 := by
  norm_num [Sphere.ray_intersect, Vec3f.sub, Vec3f.dot]

/-- The scan of the far sphere followed by the near sphere returns the near
one. -/
theorem scene_intersect_demo :
    scene_intersect Real.sqrt ⟨0, 0, 0⟩ ⟨0, 0, -1⟩
      [⟨⟨0, 0, -10⟩, 1, ⟨⟨0, 1, 0⟩⟩⟩, ⟨⟨0, 0, -5⟩, 1, ⟨⟨1, 0, 0⟩⟩⟩]
      Vec3f.zero Vec3f.zero Material.default
      = (true, ⟨0, 0, -4⟩, ⟨0, 0, 1⟩, ⟨⟨1, 0, 0⟩⟩) := by
  have hscan : scene_scan Real.sqrt ⟨0, 0, 0⟩ ⟨0, 0, -1⟩
      [⟨⟨0, 0, -10⟩, 1, ⟨⟨0, 1, 0⟩⟩⟩, ⟨⟨0, 0, -5⟩, 1, ⟨⟨1, 0, 0⟩⟩⟩]
      Vec3f.zero Vec3f.zero Material.default = ⟨4, ⟨0, 0, -4⟩, ⟨0, 0, 1⟩, ⟨⟨1, 0, 0⟩⟩⟩ := by
    unfold scene_scan
    simp only [List.foldl]
    rw [scene_step_hit Real.sqrt _ _ _ _ 9 ray_intersect_demo_far (by norm_num [FLT_MAX]),
      scene_step_hit Real.sqrt _ _ _ _ 4 ray_intersect_demo_near (by norm_num)]
    norm_num [Vec3f.add, Vec3f.scale, Vec3f.sub, Vec3f.normalize, Vec3f.norm]
  simp only [scene_intersect, hscan]
  norm_num

/-- Witness of `scene_intersect_nearest`: the scan of the far sphere followed
by the near sphere. -/
theorem scene_intersect_nearest_witness :
    ∃ (i : Nat) (si : Sphere ℝ) (d : ℝ),
      ([⟨⟨0, 0, -10⟩, 1, ⟨⟨0, 1, 0⟩⟩⟩, ⟨⟨0, 0, -5⟩, 1, ⟨⟨1, 0, 0⟩⟩⟩] : List (Sphere ℝ))[i]?
        = some si ∧
      si.ray_intersect Real.sqrt ⟨0, 0, 0⟩ ⟨0, 0, -1⟩ = some d ∧
      (⟨0, 0, -4⟩ : Vec3f ℝ) = (⟨0, 0, 0⟩ : Vec3f ℝ).add ((⟨0, 0, -1⟩ : Vec3f ℝ).scale d) ∧
      (⟨0, 0, 1⟩ : Vec3f ℝ) = ((⟨0, 0, -4⟩ : Vec3f ℝ).sub si.center).normalize Real.sqrt ∧
      (⟨⟨1, 0, 0⟩⟩ : Material ℝ) = si.material ∧
      (∀ (j : Nat) (sj : Sphere ℝ) (e : ℝ),
        ([⟨⟨0, 0, -10⟩, 1, ⟨⟨0, 1, 0⟩⟩⟩, ⟨⟨0, 0, -5⟩, 1, ⟨⟨1, 0, 0⟩⟩⟩] : List (Sphere ℝ))[j]?
          = some sj →
        sj.ray_intersect Real.sqrt ⟨0, 0, 0⟩ ⟨0, 0, -1⟩ = some e → d ≤ e) ∧
      (∀ (j : Nat) (sj : Sphere ℝ) (e : ℝ), j < i →
        ([⟨⟨0, 0, -10⟩, 1, ⟨⟨0, 1, 0⟩⟩⟩, ⟨⟨0, 0, -5⟩, 1, ⟨⟨1, 0, 0⟩⟩⟩] : List (Sphere ℝ))[j]?
          = some sj →
        sj.ray_intersect Real.sqrt ⟨0, 0, 0⟩ ⟨0, 0, -1⟩ = some e → d < e) :=
  scene_intersect_nearest Real.sqrt ⟨0, 0, 0⟩ ⟨0, 0, -1⟩
    [⟨⟨0, 0, -10⟩, 1, ⟨⟨0, 1, 0⟩⟩⟩, ⟨⟨0, 0, -5⟩, 1, ⟨⟨1, 0, 0⟩⟩⟩]
    Vec3f.zero Vec3f.zero Material.default ⟨0, 0, -4⟩ ⟨0, 0, 1⟩ ⟨⟨1, 0, 0⟩⟩
    scene_intersect_demo

/-! ## Renderer::cast_ray -/

/-- The scan never brings `spheres_dist` below the horizon when every hit is
at the horizon or beyond. -/
theorem scan_dist_ge_horizon {F : Type} [LinearOrderedField F] (sqrtf : F → F)
    (orig dir : Vec3f F) (spheres : List (Sphere F)) (hit0 N0 : Vec3f F) (mat0 : Material F)
    (h : ∀ s ∈ spheres, ∀ d, s.ray_intersect sqrtf orig dir = some d → 1000 ≤ d) :
    1000 ≤ (scene_scan sqrtf orig dir spheres hit0 N0 mat0).spheres_dist := by
  have hinv := scan_inv_scan sqrtf orig dir hit0 N0 mat0 spheres
  unfold scan_inv at hinv
  rcases hinv with ⟨h1, _⟩ | ⟨i, si, d, hi, hd, _, h1, _⟩
  · rw [h1]
    exact le_of_lt horizon_lt_FLT_MAX
  · rw [h1]
    exact h si (List.getElem?_mem hi) d hd

/-- C3: when no sphere is intersected at a distance below `1000`,
`Renderer::cast_ray` returns the background colour `(1.00, 0.30, 0.20)`,
whatever the lights are. -/
theorem cast_ray_background {F : Type} [LinearOrderedField F] (sqrtf : F → F)
    (orig dir : Vec3f F) (spheres : List (Sphere F)) (lights : List (Light F))
    (h : ∀ s ∈ spheres, ∀ d, s.ray_intersect sqrtf orig dir = some d → 1000 ≤ d) :
    cast_ray sqrtf orig dir spheres lights = ⟨1, 3 / 10, 1 / 5⟩ := by
  have hge := scan_dist_ge_horizon sqrtf orig dir spheres Vec3f.zero Vec3f.zero
    Material.default h
  unfold cast_ray scene_intersect
  simp only [decide_eq_false (not_lt.mpr hge)]
  rfl

/-- A ray up the positive z axis misses the unit sphere centred at
`(0, 0, -5)`, which lies behind its origin. -/
theorem ray_intersect_demo_behind :
    (⟨⟨0, 0, -5⟩, 1, ⟨⟨1, 0, 0⟩⟩⟩ : Sphere ℝ).ray_intersect Real.sqrt ⟨0, 0, 0⟩ ⟨0, 0, 1⟩
      = none := by
  norm_num [Sphere.ray_intersect, Vec3f.sub, Vec3f.dot]

/-- Witness of `cast_ray_background`: a sphere behind the ray origin and one
light. -/
theorem cast_ray_background_witness :
    cast_ray Real.sqrt ⟨0, 0, 0⟩ ⟨0, 0, 1⟩ [⟨⟨0, 0, -5⟩, 1, ⟨⟨1, 0, 0⟩⟩⟩]
      [⟨⟨0, -20, 0⟩, 2⟩] = ⟨1, 3 / 10, 1 / 5⟩ :=
  cast_ray_background Real.sqrt ⟨0, 0, 0⟩ ⟨0, 0, 1⟩ [⟨⟨0, 0, -5⟩, 1, ⟨⟨1, 0, 0⟩⟩⟩]
    [⟨⟨0, -20, 0⟩, 2⟩]
    (by
      intro s hs d hd
      rw [List.mem_singleton] at hs
      rw [hs, ray_intersect_demo_behind] at hd
      cases hd)

/-- The result of `std::max(0.f, b)` is never negative. -/
theorem std_max_zero_nonneg {F : Type} [LinearOrderedField F] (b : F) : 0 ≤ std_max 0 b := by
  unfold std_max
  split_ifs with h
  · exact le_of_lt h
  · exact le_refl _

/-- The loop over the lights from an arbitrary start value `acc`: the result
is not below `acc` when no light has a negative intensity. -/
theorem diffuse_foldl_ge {F : Type} [LinearOrderedField F] (sqrtf : F → F)
    (lights : List (Light F)) (point N : Vec3f F) (acc : F)
    (h : ∀ l ∈ lights, 0 ≤ l.intensity) :
    acc ≤ lights.foldl
      (fun acc l =>
        acc + l.intensity * std_max 0 (((l.position.sub point).normalize sqrtf).dot N))
      acc := by
  induction lights generalizing acc with
  | nil => exact le_refl _
  | cons l ls ih =>
    rw [List.foldl_cons]
    have hl : 0 ≤ l.intensity := h l (List.mem_cons_self _ _)
    have hstep : acc ≤ acc
        + l.intensity * std_max 0 (((l.position.sub point).normalize sqrtf).dot N) := by
      have := mul_nonneg hl (std_max_zero_nonneg (((l.position.sub point).normalize sqrtf).dot N))
      linarith
    exact le_trans hstep (ih _ (fun l2 hl2 => h l2 (List.mem_cons_of_mem _ hl2)))

/-- C6 as stated fails: for the single light at `(0, 0, 1)` with intensity
`-1`, the hit point `(0, 0, 0)` and the unit normal `(0, 0, 1)`, the
accumulated `diffuse_light_intensity` is `-1`. -/
theorem diffuse_light_intensity_negative :
    (⟨0, 0, 1⟩ : Vec3f ℝ).norm Real.sqrt = 1 ∧
      diffuse_light_intensity Real.sqrt [⟨⟨0, 0, 1⟩, -1⟩] ⟨0, 0, 0⟩ ⟨0, 0, 1⟩ = -1 := by
  constructor
  · norm_num [Vec3f.norm]
  · norm_num [diffuse_light_intensity, Vec3f.normalize, Vec3f.norm, Vec3f.sub, Vec3f.scale,
      Vec3f.dot, std_max]

/-- C6 (amended): for every list of lights none of which has a negative
intensity, every hit point and every normal, the `diffuse_light_intensity`
that `Renderer::cast_ray` accumulates is never negative. -/
theorem diffuse_light_intensity_nonneg {F : Type} [LinearOrderedField F] (sqrtf : F → F)
    (lights : List (Light F)) (point N : Vec3f F)
    (h : ∀ l ∈ lights, 0 ≤ l.intensity) :
    0 ≤ diffuse_light_intensity sqrtf lights point N := by
  unfold diffuse_light_intensity
  exact diffuse_foldl_ge sqrtf lights point N 0 h

/-- Witness of `diffuse_light_intensity_nonneg`: the light of `main`, seen
from a hit point whose normal faces away from it. -/
theorem diffuse_light_intensity_nonneg_witness :
    0 ≤ diffuse_light_intensity Real.sqrt [⟨⟨0, -20, 0⟩, 2⟩] ⟨0, 0, -4⟩ ⟨0, 1, 0⟩ :=
  diffuse_light_intensity_nonneg Real.sqrt [⟨⟨0, -20, 0⟩, 2⟩] ⟨0, 0, -4⟩ ⟨0, 1, 0⟩
    (by
      intro l hl
      rw [List.mem_singleton] at hl
      rw [hl]
      norm_num)

/-! ## Renderer::render -/

/-- The clamp `std::max(0.f, std::min(1.f, x))` of the source is the clamp
`min(1, max(0, x))`. -/
theorem clamp_eq {F : Type} [LinearOrderedField F] (x : F) :
    std_max 0 (std_min 1 x) = min 1 (max 0 x) := by
  unfold std_max std_min
  by_cases h1 : x < 1
  · rw [if_pos h1]
    by_cases h0 : 0 < x
    · rw [if_pos h0, max_eq_right (le_of_lt h0), min_eq_right (le_of_lt h1)]
    · rw [if_neg h0, max_eq_left (not_lt.mp h0), min_eq_right zero_le_one]
  · rw [if_neg h1, if_pos zero_lt_one]
    have hx : (1 : F) ≤ x := not_lt.mp h1
    rw [max_eq_right (le_trans zero_le_one hx), min_eq_left hx]

/-- C7: the byte `Renderer::render` writes for a channel value `x` is the
truncation to an integer of `255 * min(1, max(0, x))` and is at most `255`; a
channel of exactly `0` gives the byte `0`, every channel `≥ 1` gives the byte
`255`, and each of the three channels of the colour `(0, 0, 0)` gives the
byte `0`. -/
theorem channel_byte_spec {F : Type} [LinearOrderedField F] [FloorRing F] (x : F) :
    (channel_byte x : Int) = trunc (255 * min 1 (max 0 x)) ∧
      channel_byte x ≤ 255 ∧
      (x = 0 → channel_byte x = 0) ∧
      (1 ≤ x → channel_byte x = 255) ∧
      (∀ j : Nat, channel_byte ((⟨0, 0, 0⟩ : Vec3f F).get j) = 0) := by
  have h0 : (0 : F) ≤ min 1 (max 0 x) := le_min zero_le_one (le_max_left _ _)
  have h1 : min 1 (max 0 x) ≤ (1 : F) := min_le_left _ _
  have hv0 : (0 : F) ≤ 255 * min 1 (max 0 x) := mul_nonneg (by norm_num) h0
  have hv1 : 255 * min 1 (max 0 x) ≤ (255 : F) := by linarith
  have htr : trunc (255 * min 1 (max 0 x)) = Int.floor (255 * min 1 (max 0 x)) := by
    unfold trunc
    rw [if_pos hv0]
  have hf0 : 0 ≤ Int.floor (255 * min 1 (max 0 x)) := Int.floor_nonneg.mpr hv0
  have hf1 : Int.floor (255 * min 1 (max 0 x)) ≤ 255 := by
    have hle : Int.floor (255 * min 1 (max 0 x)) ≤ Int.floor (255 : F) := Int.floor_mono hv1
    have h255 : Int.floor (255 : F) = 255 := by simp
    rw [h255] at hle
    exact hle
  have hbyte : (channel_byte x : Int) = Int.floor (255 * min 1 (max 0 x)) := by
    unfold channel_byte to_char
    rw [clamp_eq, htr, Int.toNat_of_nonneg (Int.emod_nonneg _ (by norm_num))]
    exact Int.emod_eq_of_lt hf0 (by linarith)
  have hzero : channel_byte (0 : F) = 0 := by
    unfold channel_byte to_char trunc std_max std_min
    simp
  refine ⟨by rw [hbyte, htr], ?_, ?_, ?_, ?_⟩
  · have : (channel_byte x : Int) ≤ 255 := by rw [hbyte]; exact hf1
    exact_mod_cast this
  · intro hx
    have : (channel_byte x : Int) = 0 := by
      rw [hbyte, hx]
      simp
    exact_mod_cast this
  · intro hx
    have hm : min 1 (max 0 x) = 1 := by
      rw [max_eq_right (le_trans zero_le_one hx), min_eq_left hx]
    have : (channel_byte x : Int) = 255 := by
      rw [hbyte, hm, mul_one]
      simp
    exact_mod_cast this
  · intro j
    unfold Vec3f.get
    split_ifs <;> exact hzero

/-- Witness of `channel_byte_spec`: the channel values `0` and `3 / 2`. -/
theorem channel_byte_spec_witness :
    channel_byte (0 : ℚ) = 0 ∧ channel_byte (3 / 2 : ℚ) = 255 :=
  ⟨(channel_byte_spec (0 : ℚ)).2.2.1 rfl, (channel_byte_spec (3 / 2 : ℚ)).2.2.2.1 (by norm_num)⟩

/-! ## The centre pixel of the scene of `main` -/

/-- The Cauchy-Schwarz inequality for the dot product of `geometry.h`. -/
theorem dot_sq_le (v w : Vec3f ℝ) : (v.dot w) ^ 2 ≤ v.dot v * w.dot w := by
  unfold Vec3f.dot
  nlinarith [sq_nonneg (v.x * w.y - v.y * w.x), sq_nonneg (v.x * w.z - v.z * w.x),
    sq_nonneg (v.y * w.z - v.z * w.y)]

/-- The dot product of a vector with itself is not negative. -/
theorem dot_self_nonneg (v : Vec3f ℝ) : 0 ≤ v.dot v := by
  unfold Vec3f.dot
  nlinarith [mul_self_nonneg v.x, mul_self_nonneg v.y, mul_self_nonneg v.z]

/-- The length of a vector is the square root of its dot product with
itself. -/
theorem norm_eq_sqrt_dot (v : Vec3f ℝ) : v.norm Real.sqrt = Real.sqrt (v.dot v) := rfl

/-- The dot product of two normalized vectors. -/
theorem normalize_dot_normalize (v w : Vec3f ℝ) :
    (v.normalize Real.sqrt).dot (w.normalize Real.sqrt)
      = v.dot w * (1 / v.norm Real.sqrt) * (1 / w.norm Real.sqrt) := by
  unfold Vec3f.normalize Vec3f.dot Vec3f.scale
  simp only
  ring

/-- A vector that is not zero is normalized to a unit vector. -/
theorem normalize_dot_self (v : Vec3f ℝ) (hv : 0 < v.dot v) :
    (v.normalize Real.sqrt).dot (v.normalize Real.sqrt) = 1 := by
  rw [normalize_dot_normalize, norm_eq_sqrt_dot]
  have hpos : 0 < Real.sqrt (v.dot v) := Real.sqrt_pos.mpr hv
  have hsq : Real.sqrt (v.dot v) * Real.sqrt (v.dot v) = v.dot v :=
    Real.mul_self_sqrt (le_of_lt hv)
  field_simp

/-- The dot product of a normalized non-zero vector with a unit vector is at
most one. -/
theorem normalize_dot_le_one (v N : Vec3f ℝ) (hv : 0 < v.dot v) (hN : N.dot N = 1) :
    (v.normalize Real.sqrt).dot N ≤ 1 := by
  have h1 := dot_sq_le (v.normalize Real.sqrt) N
  rw [normalize_dot_self v hv, hN] at h1
  nlinarith

/-- For a single sphere that the ray hits below the horizon,
`Renderer::cast_ray` returns the diffuse colour of the sphere scaled by the
accumulated light intensity at the hit point. -/
theorem cast_ray_single_hit (orig dir : Vec3f ℝ) (s : Sphere ℝ) (lights : List (Light ℝ))
    (d : ℝ) (hd : s.ray_intersect Real.sqrt orig dir = some d) (hlt : d < 1000) :
    cast_ray Real.sqrt orig dir [s] lights =
      s.material.diffuse_color.scale
        (diffuse_light_intensity Real.sqrt lights (orig.add (dir.scale d))
          (((orig.add (dir.scale d)).sub s.center).normalize Real.sqrt)) := by
  have hscan : scene_scan Real.sqrt orig dir [s] Vec3f.zero Vec3f.zero Material.default
      = ⟨d, orig.add (dir.scale d),
          ((orig.add (dir.scale d)).sub s.center).normalize Real.sqrt, s.material⟩ := by
    unfold scene_scan
    simp only [List.foldl]
    exact scene_step_hit Real.sqrt orig dir _ s d hd (lt_trans hlt horizon_lt_FLT_MAX)
  unfold cast_ray scene_intersect
  simp only [hscan, decide_eq_true hlt]

/-- The tangent of one half lies strictly between `0` and `1`. -/
theorem tan_half_bounds : 0 < Real.tan (1 / 2) ∧ Real.tan (1 / 2) < 1 := by
  have hpi := Real.pi_gt_three
  constructor
  · exact Real.tan_pos_of_pos_of_lt_pi_div_two (by norm_num) (by linarith)
  · have h := Real.tan_lt_tan_of_lt_of_lt_pi_div_two
      (by linarith : -(Real.pi / 2) < 1 / 2) (by linarith : Real.pi / 4 < Real.pi / 2)
      (by linarith : (1 : ℝ) / 2 < Real.pi / 4)
    rw [Real.tan_pi_div_four] at h
    exact h

/-- The camera vector of the centre pixel is `(1/2, -1/2, dir_z)` with
`dir_z ≤ -375`. -/
theorem camera_dir_center :
    ∃ z : ℝ, z ≤ -375 ∧ camera_dir Real.tan 525 375 = ⟨1 / 2, -(1 / 2), z⟩ := by
  obtain ⟨h0, h1⟩ := tan_half_bounds
  refine ⟨-(750 : ℝ) / (2 * Real.tan (1 / 2)), ?_, ?_⟩
  · rw [div_le_iff₀ (by linarith)]
    nlinarith
  · unfold camera_dir width height fov
    simp only [Vec3f.mk.injEq]
    refine ⟨by norm_num, by norm_num, by norm_num⟩

/-- The ray of the scene of `main` from the origin along a unit direction
that points almost straight down the negative z axis, a little to the right
and downward: it hits the pink sphere at a distance `d` below the horizon,
and at the hit point the vector to the light has a positive dot product
with the outward vector `hit - center`. -/
theorem pink_sphere_hit (u : Vec3f ℝ) (hu : u.dot u = 1) (hx : 0 < u.x) (hy : u.y < 0)
    (hz : u.z ≤ -(499 / 500)) :
    ∃ d, (pink_sphere : Sphere ℝ).ray_intersect Real.sqrt Vec3f.zero u = some d ∧
      d < 1000 ∧
      0 < (((main_light : Light ℝ).position.sub (Vec3f.zero.add (u.scale d))).dot
        ((Vec3f.zero.add (u.scale d)).sub (pink_sphere : Sphere ℝ).center)) := by
  have htca : (pink_sphere : Sphere ℝ).tca Vec3f.zero u = 5 * u.x - 50 * u.z := by
    unfold Sphere.tca pink_sphere Vec3f.zero Vec3f.sub Vec3f.dot
    simp only
    ring
  have hd2 : (pink_sphere : Sphere ℝ).d2 Vec3f.zero u = 2525 - (5 * u.x - 50 * u.z) ^ 2 := by
    unfold Sphere.d2
    rw [htca]
    unfold pink_sphere Vec3f.zero Vec3f.sub Vec3f.dot
    simp only
    ring
  have hrad : (pink_sphere : Sphere ℝ).radius = 6 := rfl
  have hunit : u.x * u.x + u.y * u.y + u.z * u.z = 1 := hu
  have ht49 : 499 / 10 ≤ 5 * u.x - 50 * u.z := by linarith
  have ht55 : 5 * u.x - 50 * u.z ≤ 55 := by
    nlinarith [sq_nonneg (u.x - 1), sq_nonneg (u.z + 1), mul_self_nonneg u.y,
      sq_nonneg (u.x + 1), sq_nonneg (u.z - 1)]
  have hle : (pink_sphere : Sphere ℝ).d2 Vec3f.zero u
      ≤ (pink_sphere : Sphere ℝ).radius * (pink_sphere : Sphere ℝ).radius := by
    rw [hd2, hrad]
    nlinarith
  obtain ⟨hc0, hc2⟩ := thc_spec pink_sphere Vec3f.zero u hle
  rw [hd2, hrad] at hc2
  have hres := ray_intersect_eq Real.sqrt (pink_sphere : Sphere ℝ) Vec3f.zero u
  rw [if_neg (not_lt.mpr hle), htca] at hres
  generalize (pink_sphere : Sphere ℝ).thc Real.sqrt Vec3f.zero u = c at hc0 hc2 hres
  have hclt : c < 5 * u.x - 50 * u.z := by
    by_contra hcon
    have := not_lt.mp hcon
    nlinarith
  rw [if_neg (by linarith)] at hres
  refine ⟨5 * u.x - 50 * u.z - c, hres, by linarith, ?_⟩
  have hdpos : 0 < 5 * u.x - 50 * u.z - c := by linarith
  have hkey : (((main_light : Light ℝ).position.sub
        (Vec3f.zero.add (u.scale (5 * u.x - 50 * u.z - c)))).dot
      ((Vec3f.zero.add (u.scale (5 * u.x - 50 * u.z - c))).sub
        (pink_sphere : Sphere ℝ).center))
      = (5 * u.x - 50 * u.z - c) * (c + 20 * (-u.y))
        + (5 * u.x - 50 * u.z - c) ^ 2 * (1 - (u.x * u.x + u.y * u.y + u.z * u.z)) := by
    unfold main_light pink_sphere Vec3f.zero Vec3f.add Vec3f.sub Vec3f.scale Vec3f.dot
    simp only
    ring
  rw [hkey, hunit]
  have : 0 < (5 * u.x - 50 * u.z - c) * (c + 20 * (-u.y)) :=
    mul_pos hdpos (by linarith)
  linarith

/-- A vector with a positive dot product with some vector is not zero. -/
theorem dot_self_pos_of_dot_pos (v w : Vec3f ℝ) (h : 0 < v.dot w) : 0 < v.dot v := by
  have h1 := dot_sq_le v w
  have h2 := dot_self_nonneg v
  have h3 := dot_self_nonneg w
  by_contra hcon
  have h4 : v.dot v = 0 := le_antisymm (not_lt.mp hcon) h2
  rw [h4, zero_mul] at h1
  nlinarith

/-- The normalized camera direction of the centre pixel is a unit vector that
points to the right, downward and almost straight down the negative z
axis. -/
theorem center_dir_bounds :
    ((camera_dir Real.tan 525 375).normalize Real.sqrt).dot
        ((camera_dir Real.tan 525 375).normalize Real.sqrt) = 1 ∧
      0 < ((camera_dir Real.tan 525 375).normalize Real.sqrt).x ∧
      ((camera_dir Real.tan 525 375).normalize Real.sqrt).y < 0 ∧
      ((camera_dir Real.tan 525 375).normalize Real.sqrt).z ≤ -(499 / 500) := by
  obtain ⟨z, hz, hcam⟩ := camera_dir_center
  rw [hcam]
  have hvv : (⟨1 / 2, -(1 / 2), z⟩ : Vec3f ℝ).dot ⟨1 / 2, -(1 / 2), z⟩ = 1 / 2 + z * z := by
    unfold Vec3f.dot
    simp only
    ring
  have hpos : 0 < (⟨1 / 2, -(1 / 2), z⟩ : Vec3f ℝ).dot ⟨1 / 2, -(1 / 2), z⟩ := by
    rw [hvv]
    nlinarith
  refine ⟨normalize_dot_self _ hpos, ?_⟩
  have hn : 0 < (⟨1 / 2, -(1 / 2), z⟩ : Vec3f ℝ).norm Real.sqrt := by
    rw [norm_eq_sqrt_dot]
    exact Real.sqrt_pos.mpr hpos
  have hnle : (⟨1 / 2, -(1 / 2), z⟩ : Vec3f ℝ).norm Real.sqrt ≤ 500 / 499 * (-z) := by
    rw [norm_eq_sqrt_dot, hvv, Real.sqrt_le_iff]
    constructor
    · linarith
    · nlinarith
  unfold Vec3f.normalize Vec3f.scale
  simp only
  generalize (⟨1 / 2, -(1 / 2), z⟩ : Vec3f ℝ).norm Real.sqrt = n at hn hnle
  have hinv : 0 < 1 / n := one_div_pos.mpr hn
  refine ⟨by positivity, by nlinarith, ?_⟩
  rw [mul_one_div, div_le_iff₀ hn]
  linarith

/-- C9: in the scene with the single sphere of centre `(5, 0, -50)`, radius
`6` and diffuse colour `(1.00, 0.50, 0.75)` and the single light at
`(0, -20, 0)` with intensity `2.0`, the camera ray of the centre pixel
(`i = 525`, `j = 375`) intersects the sphere, and every channel of the colour
`Renderer::cast_ray` returns for it is strictly positive and at most the
channel of the diffuse colour scaled by `2.0`. -/
theorem center_pixel_color :
    (∃ d, (pink_sphere : Sphere ℝ).ray_intersect Real.sqrt Vec3f.zero
        ((camera_dir Real.tan 525 375).normalize Real.sqrt) = some d) ∧
      0 < (pixel_color Real.sqrt Real.tan [pink_sphere] [main_light] 525 375).x ∧
      (pixel_color Real.sqrt Real.tan [pink_sphere] [main_light] 525 375).x
        ≤ ((⟨1, 1 / 2, 3 / 4⟩ : Vec3f ℝ).scale 2).x ∧
      0 < (pixel_color Real.sqrt Real.tan [pink_sphere] [main_light] 525 375).y ∧
      (pixel_color Real.sqrt Real.tan [pink_sphere] [main_light] 525 375).y
        ≤ ((⟨1, 1 / 2, 3 / 4⟩ : Vec3f ℝ).scale 2).y ∧
      0 < (pixel_color Real.sqrt Real.tan [pink_sphere] [main_light] 525 375).z ∧
      (pixel_color Real.sqrt Real.tan [pink_sphere] [main_light] 525 375).z
        ≤ ((⟨1, 1 / 2, 3 / 4⟩ : Vec3f ℝ).scale 2).z := by
  obtain ⟨hu, hx, hy, hz⟩ := center_dir_bounds
  unfold pixel_color
  generalize (camera_dir Real.tan 525 375).normalize Real.sqrt = u at hu hx hy hz
  obtain ⟨d, hres, hlt, hdot⟩ := pink_sphere_hit u hu hx hy hz
  refine ⟨⟨d, hres⟩, ?_⟩
  rw [cast_ray_single_hit Vec3f.zero u pink_sphere [main_light] d hres hlt]
  have hdot2 : 0 < ((Vec3f.zero.add (u.scale d)).sub (pink_sphere : Sphere ℝ).center).dot
      ((main_light : Light ℝ).position.sub (Vec3f.zero.add (u.scale d))) := by
    have hcomm : ((Vec3f.zero.add (u.scale d)).sub (pink_sphere : Sphere ℝ).center).dot
        ((main_light : Light ℝ).position.sub (Vec3f.zero.add (u.scale d)))
        = ((main_light : Light ℝ).position.sub (Vec3f.zero.add (u.scale d))).dot
          ((Vec3f.zero.add (u.scale d)).sub (pink_sphere : Sphere ℝ).center) := by
      unfold Vec3f.dot
      ring
    rw [hcomm]
    exact hdot
  have hw1 := dot_self_pos_of_dot_pos _ _ hdot
  have hw2 := dot_self_pos_of_dot_pos _ _ hdot2
  have hq1 := normalize_dot_le_one _ _ hw1 (normalize_dot_self _ hw2)
  have hq0 : 0 < (((main_light : Light ℝ).position.sub
        (Vec3f.zero.add (u.scale d))).normalize Real.sqrt).dot
      (((Vec3f.zero.add (u.scale d)).sub (pink_sphere : Sphere ℝ).center).normalize
        Real.sqrt) := by
    rw [normalize_dot_normalize, norm_eq_sqrt_dot, norm_eq_sqrt_dot]
    have h1 := Real.sqrt_pos.mpr hw1
    have h2 := Real.sqrt_pos.mpr hw2
    positivity
  have hI : diffuse_light_intensity Real.sqrt [main_light] (Vec3f.zero.add (u.scale d))
      (((Vec3f.zero.add (u.scale d)).sub (pink_sphere : Sphere ℝ).center).normalize Real.sqrt)
      = 0 + (main_light : Light ℝ).intensity * std_max 0
        ((((main_light : Light ℝ).position.sub
          (Vec3f.zero.add (u.scale d))).normalize Real.sqrt).dot
        (((Vec3f.zero.add (u.scale d)).sub (pink_sphere : Sphere ℝ).center).normalize
          Real.sqrt)) := rfl
  rw [hI]
  generalize (((main_light : Light ℝ).position.sub
        (Vec3f.zero.add (u.scale d))).normalize Real.sqrt).dot
      (((Vec3f.zero.add (u.scale d)).sub (pink_sphere : Sphere ℝ).center).normalize
        Real.sqrt) = q at hq0 hq1
  have hmax : std_max 0 q = q := by
    unfold std_max
    rw [if_pos hq0]
  rw [hmax]
  have hint : (main_light : Light ℝ).intensity = 2 := rfl
  have hcol : (pink_sphere : Sphere ℝ).material.diffuse_color = ⟨1, 1 / 2, 3 / 4⟩ := rfl
  rw [hint, hcol]
  unfold Vec3f.scale
  simp only
  refine ⟨?_, ?_, ?_, ?_, ?_, ?_⟩ <;> nlinarith

/-! ## No occlusion test -/

/-- The scan of a list with a sphere the ray misses inserted at any position
ends in the same state as the scan of the list without it. -/
theorem scene_scan_insert_missed {F : Type} [LinearOrderedField F] (sqrtf : F → F)
    (orig dir : Vec3f F) (l1 l2 : List (Sphere F)) (s : Sphere F) (hit0 N0 : Vec3f F)
    (mat0 : Material F) (hmiss : s.ray_intersect sqrtf orig dir = none) :
    scene_scan sqrtf orig dir (l1 ++ s :: l2) hit0 N0 mat0
      = scene_scan sqrtf orig dir (l1 ++ l2) hit0 N0 mat0 := by
  unfold scene_scan
  rw [List.foldl_append, List.foldl_append, List.foldl_cons,
    scene_step_miss sqrtf orig dir _ s hmiss]

/-- C12: inserting, at any position of the sphere list, a further sphere that
the ray itself does not intersect leaves the colour returned by
`Renderer::cast_ray` unchanged, whatever the lights are and wherever the
inserted sphere lies. -/
theorem cast_ray_insert_missed {F : Type} [LinearOrderedField F] (sqrtf : F → F)
    (orig dir : Vec3f F) (l1 l2 : List (Sphere F)) (s : Sphere F) (lights : List (Light F))
    (hmiss : s.ray_intersect sqrtf orig dir = none) :
    cast_ray sqrtf orig dir (l1 ++ s :: l2) lights = cast_ray sqrtf orig dir (l1 ++ l2) lights := by
  unfold cast_ray scene_intersect
  rw [scene_scan_insert_missed sqrtf orig dir l1 l2 s _ _ _ hmiss]

/-- The ray down the negative z axis misses the sphere of radius `1/2`
centred at `(0, 2, -4)`. -/
theorem ray_intersect_demo_occluder :
    (⟨⟨0, 2, -4⟩, 1 / 2, ⟨⟨0, 0, 1⟩⟩⟩ : Sphere ℝ).ray_intersect Real.sqrt ⟨0, 0, 0⟩ ⟨0, 0, -1⟩
      = none := by
  norm_num [Sphere.ray_intersect, Vec3f.sub, Vec3f.dot]

/-- Witness of `cast_ray_insert_missed`: the ray hits the unit sphere centred
at `(0, 0, -5)` at `(0, 0, -4)`; the light is at `(0, 3, -4)` and the
inserted sphere, centred at `(0, 2, -4)` with radius `1/2`, lies on the
segment between the hit point and the light. -/
theorem cast_ray_insert_missed_witness :
    cast_ray Real.sqrt ⟨0, 0, 0⟩ ⟨0, 0, -1⟩
        ([⟨⟨0, 0, -5⟩, 1, ⟨⟨1, 0, 0⟩⟩⟩] ++ ⟨⟨0, 2, -4⟩, 1 / 2, ⟨⟨0, 0, 1⟩⟩⟩ :: [])
        [⟨⟨0, 3, -4⟩, 2⟩]
      = cast_ray Real.sqrt ⟨0, 0, 0⟩ ⟨0, 0, -1⟩ ([⟨⟨0, 0, -5⟩, 1, ⟨⟨1, 0, 0⟩⟩⟩] ++ [])
        [⟨⟨0, 3, -4⟩, 2⟩] :=
  cast_ray_insert_missed Real.sqrt ⟨0, 0, 0⟩ ⟨0, 0, -1⟩ [⟨⟨0, 0, -5⟩, 1, ⟨⟨1, 0, 0⟩⟩⟩] []
    ⟨⟨0, 2, -4⟩, 1 / 2, ⟨⟨0, 0, 1⟩⟩⟩ [⟨⟨0, 3, -4⟩, 2⟩] ray_intersect_demo_occluder

/-! ## Negative radius -/

/-- The intersection test of the sphere with radius `-r` is that of the
sphere with radius `r`. -/
theorem ray_intersect_neg {F : Type} [LinearOrderedField F] (sqrtf : F → F) (c : Vec3f F)
    (r : F) (m : Material F) (orig dir : Vec3f F) :
    (⟨c, -r, m⟩ : Sphere F).ray_intersect sqrtf orig dir
      = (⟨c, r, m⟩ : Sphere F).ray_intersect sqrtf orig dir := by
  unfold Sphere.ray_intersect
  simp only [neg_mul_neg]

/-- One iteration of the scan for the sphere with radius `-r` is that for the
sphere with radius `r`. -/
theorem scene_step_neg {F : Type} [LinearOrderedField F] (sqrtf : F → F) (c : Vec3f F)
    (r : F) (m : Material F) (orig dir : Vec3f F) (st : Scan F) :
    scene_step sqrtf orig dir st ⟨c, -r, m⟩ = scene_step sqrtf orig dir st ⟨c, r, m⟩ := by
  unfold scene_step
  rw [ray_intersect_neg]

/-- C17: `Sphere::ray_intersect` depends on the radius only through its
square: the sphere of radius `-r` gives the same answer and distance as the
sphere of radius `r` with the same centre, and `Renderer::scene_intersect`
and `Renderer::cast_ray` return the same for a sphere list with the one in
place of the other at any position. -/
theorem ray_intersect_neg_radius {F : Type} [LinearOrderedField F] (sqrtf : F → F)
    (c : Vec3f F) (r : F) (m : Material F) (orig dir : Vec3f F) (l1 l2 : List (Sphere F))
    (hit0 N0 : Vec3f F) (mat0 : Material F) (lights : List (Light F)) :
    (⟨c, -r, m⟩ : Sphere F).ray_intersect sqrtf orig dir
        = (⟨c, r, m⟩ : Sphere F).ray_intersect sqrtf orig dir ∧
      scene_intersect sqrtf orig dir (l1 ++ ⟨c, -r, m⟩ :: l2) hit0 N0 mat0
        = scene_intersect sqrtf orig dir (l1 ++ ⟨c, r, m⟩ :: l2) hit0 N0 mat0 ∧
      cast_ray sqrtf orig dir (l1 ++ ⟨c, -r, m⟩ :: l2) lights
        = cast_ray sqrtf orig dir (l1 ++ ⟨c, r, m⟩ :: l2) lights := by
  have hscan : ∀ (h0 n0 : Vec3f F) (m0 : Material F),
      scene_scan sqrtf orig dir (l1 ++ ⟨c, -r, m⟩ :: l2) h0 n0 m0
        = scene_scan sqrtf orig dir (l1 ++ ⟨c, r, m⟩ :: l2) h0 n0 m0 := by
    intro h0 n0 m0
    unfold scene_scan
    rw [List.foldl_append, List.foldl_append, List.foldl_cons, List.foldl_cons, scene_step_neg]
  refine ⟨ray_intersect_neg sqrtf c r m orig dir, ?_, ?_⟩
  · unfold scene_intersect
    rw [hscan]
  · unfold cast_ray scene_intersect
    rw [hscan]

/-! ## The clamp of the light term -/

/-- Two scan states with equal fields are equal. -/
theorem scan_eq {F : Type} (a b : Scan F) (h1 : a.spheres_dist = b.spheres_dist)
    (h2 : a.hit = b.hit) (h3 : a.N = b.N) (h4 : a.material = b.material) : a = b := by
  cases a
  cases b
  simp only at h1 h2 h3 h4
  rw [h1, h2, h3, h4]

/-- The scan of a permutation of a sphere list in which at most one index
attains the smallest hit distance ends in the same state. -/
theorem scene_scan_perm {F : Type} [LinearOrderedField F] (sqrtf : F → F)
    (orig dir : Vec3f F) (l l2 : List (Sphere F)) (hit0 N0 : Vec3f F) (mat0 : Material F)
    (hperm : l.Perm l2)
    (huniq : ∀ (i j : Nat) (si sj : Sphere F) (d : F), l[i]? = some si → l[j]? = some sj →
      si.ray_intersect sqrtf orig dir = some d → sj.ray_intersect sqrtf orig dir = some d →
      (∀ s ∈ l, ∀ e, s.ray_intersect sqrtf orig dir = some e → d ≤ e) → i = j) :
    scene_scan sqrtf orig dir l2 hit0 N0 mat0 = scene_scan sqrtf orig dir l hit0 N0 mat0 := by
  have hinv := scan_inv_scan sqrtf orig dir hit0 N0 mat0 l
  have hinv2 := scan_inv_scan sqrtf orig dir hit0 N0 mat0 l2
  unfold scan_inv at hinv hinv2
  rcases hinv with ⟨a1, a2, a3, a4, a5⟩ | ⟨i, si, d, hi, hd, hdlt, a1, a2, a3, a4, a5, _⟩
  · rcases hinv2 with ⟨b1, b2, b3, b4, _⟩ | ⟨i2, si2, d2, hi2, hd2, hdlt2, _⟩
    · exact scan_eq _ _ (by rw [a1, b1]) (by rw [a2, b2]) (by rw [a3, b3]) (by rw [a4, b4])
    · exfalso
      have hmem : si2 ∈ l := hperm.mem_iff.mpr (List.getElem?_mem hi2)
      obtain ⟨j, hj⟩ := List.mem_iff_getElem?.mp hmem
      exact absurd hdlt2 (not_lt.mpr (a5 j si2 d2 hj hd2))
  · rcases hinv2 with ⟨_, _, _, _, b5⟩ | ⟨i2, si2, d2, hi2, hd2, _, b1, b2, b3, b4, b5, _⟩
    · exfalso
      have hmem : si ∈ l2 := hperm.mem_iff.mp (List.getElem?_mem hi)
      obtain ⟨j, hj⟩ := List.mem_iff_getElem?.mp hmem
      exact absurd hdlt (not_lt.mpr (b5 j si d hj hd))
    · have hmem2 : si2 ∈ l := hperm.mem_iff.mpr (List.getElem?_mem hi2)
      obtain ⟨j, hj⟩ := List.mem_iff_getElem?.mp hmem2
      have hmem : si ∈ l2 := hperm.mem_iff.mp (List.getElem?_mem hi)
      obtain ⟨k, hk⟩ := List.mem_iff_getElem?.mp hmem
      have hle : d ≤ d2 := a5 j si2 d2 hj hd2
      have hge : d2 ≤ d := b5 k si d hk hd
      have hdd : d2 = d := le_antisymm hge hle
      rw [hdd] at hd2 b1 b2 b3
      have hmin : ∀ s ∈ l, ∀ e, s.ray_intersect sqrtf orig dir = some e → d ≤ e := by
        intro s hs e he
        obtain ⟨m, hm⟩ := List.mem_iff_getElem?.mp hs
        exact a5 m s e hm he
      have hij : i = j := huniq i j si si2 d hi hj hd hd2 hmin
      rw [← hij, hi] at hj
      have hss : si = si2 := Option.some.inj hj
      rw [← hss] at b3 b4
      exact scan_eq _ _ (by rw [a1, b1]) (by rw [a2, b2]) (by rw [a3, b3]) (by rw [a4, b4])

/-- C13: for a sphere list in which the smallest `ray_intersect` distance is
attained at no more than one index, `Renderer::scene_intersect` returns the
same answer, hit point, normal and material for every permutation of the
list. -/
theorem scene_intersect_perm {F : Type} [LinearOrderedField F] (sqrtf : F → F)
    (orig dir : Vec3f F) (l l2 : List (Sphere F)) (hit0 N0 : Vec3f F) (mat0 : Material F)
    (hperm : l.Perm l2)
    (huniq : ∀ (i j : Nat) (si sj : Sphere F) (d : F), l[i]? = some si → l[j]? = some sj →
      si.ray_intersect sqrtf orig dir = some d → sj.ray_intersect sqrtf orig dir = some d →
      (∀ s ∈ l, ∀ e, s.ray_intersect sqrtf orig dir = some e → d ≤ e) → i = j) :
    scene_intersect sqrtf orig dir l2 hit0 N0 mat0
      = scene_intersect sqrtf orig dir l hit0 N0 mat0 := by
  unfold scene_intersect
  rw [scene_scan_perm sqrtf orig dir l l2 hit0 N0 mat0 hperm huniq]

/-- Witness of `scene_intersect_perm`: the far sphere and the near sphere in
both orders. -/
theorem scene_intersect_perm_witness :
    scene_intersect Real.sqrt ⟨0, 0, 0⟩ ⟨0, 0, -1⟩
        [⟨⟨0, 0, -5⟩, 1, ⟨⟨1, 0, 0⟩⟩⟩, ⟨⟨0, 0, -10⟩, 1, ⟨⟨0, 1, 0⟩⟩⟩]
        Vec3f.zero Vec3f.zero Material.default
      = scene_intersect Real.sqrt ⟨0, 0, 0⟩ ⟨0, 0, -1⟩
        [⟨⟨0, 0, -10⟩, 1, ⟨⟨0, 1, 0⟩⟩⟩, ⟨⟨0, 0, -5⟩, 1, ⟨⟨1, 0, 0⟩⟩⟩]
        Vec3f.zero Vec3f.zero Material.default :=
  scene_intersect_perm Real.sqrt ⟨0, 0, 0⟩ ⟨0, 0, -1⟩
    [⟨⟨0, 0, -10⟩, 1, ⟨⟨0, 1, 0⟩⟩⟩, ⟨⟨0, 0, -5⟩, 1, ⟨⟨1, 0, 0⟩⟩⟩]
    [⟨⟨0, 0, -5⟩, 1, ⟨⟨1, 0, 0⟩⟩⟩, ⟨⟨0, 0, -10⟩, 1, ⟨⟨0, 1, 0⟩⟩⟩]
    Vec3f.zero Vec3f.zero Material.default
    (List.Perm.swap _ _ _)
    (by
      intro i j si sj d hi hj hdi hdj hmin
      have h4 : d ≤ 4 := hmin ⟨⟨0, 0, -5⟩, 1, ⟨⟨1, 0, 0⟩⟩⟩ (by simp) 4 ray_intersect_demo_near
      have key : ∀ (k : Nat) (sk : Sphere ℝ),
          ([⟨⟨0, 0, -10⟩, 1, ⟨⟨0, 1, 0⟩⟩⟩, ⟨⟨0, 0, -5⟩, 1, ⟨⟨1, 0, 0⟩⟩⟩] : List (Sphere ℝ))[k]?
            = some sk →
          sk.ray_intersect Real.sqrt ⟨0, 0, 0⟩ ⟨0, 0, -1⟩ = some d → k = 1 := by
        intro k sk hk hdk
        match k with
        | 0 =>
          exfalso
          simp only [List.getElem?_cons_zero, Option.some.injEq] at hk
          rw [← hk, ray_intersect_demo_far] at hdk
          have h9 : (9 : ℝ) = d := Option.some.inj hdk
          linarith
        | 1 => rfl
        | k + 2 =>
          exfalso
          simp at hk
      rw [key i si hi hdi, key j sj hj hdj])

/-! ## The pixel loop and the output of `Renderer::render` -/

/-- The indices the pixel loop writes, in order, are `0, 1, .., w * h - 1`. -/
theorem pixel_writes_fst {α : Type} (w h : Nat) (f : Nat → Nat → α) :
    (pixel_writes w h f).map Prod.fst = List.range (w * h) := by
  unfold pixel_writes
  induction h with
  | zero => simp
  | succ h ih =>
    rw [List.range_succ, List.flatMap_append, List.map_append, ih, Nat.mul_succ,
      List.range_add, List.flatMap_singleton, List.map_map]
    congr 1
    apply List.map_congr_left
    intro i _
    simp only [Function.comp_apply]
    rw [Nat.mul_comm w h, Nat.add_comm]

/-- The values the pixel loop writes, in order: row after row, and in each
row column after column. -/
theorem pixel_writes_snd {α : Type} (w h : Nat) (f : Nat → Nat → α) :
    (pixel_writes w h f).map Prod.snd
      = (List.range h).flatMap (fun j => (List.range w).map (fun i => f i j)) := by
  unfold pixel_writes
  rw [List.map_flatMap]
  apply List.flatMap_congr
  intro j _
  rw [List.map_map]
  rfl

/-- Assignments to the indices `0, 1, .., n - 1` in this order replace the
first `n` elements of the vector by the assigned values. -/
theorem apply_writes_range {α : Type} (ws : List (Nat × α)) :
    ∀ fb : List α, ws.map Prod.fst = List.range ws.length → ws.length ≤ fb.length →
      apply_writes fb ws = ws.map Prod.snd ++ fb.drop ws.length := by
  induction ws using List.reverseRecOn with
  | nil =>
    intro fb _ _
    simp [apply_writes]
  | append_singleton ws p ih =>
    intro fb hfst hlen
    rw [List.length_append, List.length_singleton] at hfst hlen
    rw [List.map_append, List.range_succ] at hfst
    have hl : (ws.map Prod.fst).length = (List.range ws.length).length := by simp
    obtain ⟨h1, h2⟩ := List.append_inj hfst hl
    have hk : p.1 = ws.length := by simpa using h2
    have hstep : apply_writes fb (ws ++ [p]) = (apply_writes fb ws).set p.1 p.2 := by
      unfold apply_writes
      rw [List.foldl_append]
      rfl
    rw [hstep, ih fb h1 (by omega), hk, List.map_append, List.length_append,
      List.length_singleton]
    rw [List.set_append_right _ _ (by simp), List.length_map, Nat.sub_self,
      List.drop_eq_getElem_cons (by omega : ws.length < fb.length), List.set_cons_zero]
    simp

/-- After the pixel loop the vector holds the values of the pixels row after
row. -/
theorem apply_pixel_writes {α : Type} (w h : Nat) (f : Nat → Nat → α) (z : α) :
    apply_writes (List.replicate (w * h) z) (pixel_writes w h f)
      = (List.range h).flatMap (fun j => (List.range w).map (fun i => f i j)) := by
  have hlen : (pixel_writes w h f).length = w * h := by
    have := congrArg List.length (pixel_writes_fst w h f)
    simpa using this
  rw [apply_writes_range _ _ (by rw [hlen]; exact pixel_writes_fst w h f) (by simp [hlen]),
    pixel_writes_snd, hlen]
  simp

/-- C11: in `Renderer::render`, for every pixel with column `i < width` and
row `j < height` the slot index `i + j * width` is below `width * height`,
two different pixels never get the same index, the indices the pixel loop
writes are, in order, `0, 1, .., width * height - 1`, and so every slot below
`width * height` is written exactly once. -/
theorem pixel_slots_once :
    (∀ i j : Nat, i < width → j < height → i + j * width < width * height) ∧
      (∀ i j i2 j2 : Nat, i < width → j < height → i2 < width → j2 < height →
        i + j * width = i2 + j2 * width → i = i2 ∧ j = j2) ∧
      (∀ (α : Type) (f : Nat → Nat → α),
        (pixel_writes width height f).map Prod.fst = List.range (width * height)) ∧
      (∀ (α : Type) (f : Nat → Nat → α) (k : Nat), k < width * height →
        ((pixel_writes width height f).map Prod.fst).count k = 1) := by
  refine ⟨?_, ?_, ?_, ?_⟩
  · intro i j hi hj
    simp only [width, height] at hi hj ⊢
    omega
  · intro i j i2 j2 hi hj hi2 hj2 h
    simp only [width, height] at hi hj hi2 hj2 h
    omega
  · intro α f
    exact pixel_writes_fst width height f
  · intro α f k hk
    rw [pixel_writes_fst]
    exact List.count_eq_one_of_mem (List.nodup_range _) (List.mem_range.mpr hk)

/-- Witness of `pixel_slots_once`: the centre pixel and the last pixel. -/
theorem pixel_slots_once_witness :
    525 + 375 * width < width * height ∧
      ((pixel_writes width height (fun i j => i + j)).map Prod.fst).count 787499 = 1 :=
  ⟨pixel_slots_once.1 525 375 (by decide) (by decide),
    pixel_slots_once.2.2.2 Nat (fun i j => i + j) 787499 (by decide)⟩

/-- Reading the elements `0 .. fb.length - 1` of a vector gives the vector. -/
theorem range_map_getD {α : Type} (fb : List α) (z : α) :
    (List.range fb.length).map (fun i => fb.getD i z) = fb := by
  apply List.ext_getElem
  · simp
  · intro n h1 h2
    simp only [List.getElem_map, List.getElem_range]
    exact List.getD_eq_getElem fb z h2

/-- Three bytes for each element make three times as many bytes. -/
theorem length_flatMap_triple {α : Type} (fb : List α) (a b c : α → Nat) :
    (fb.flatMap (fun x => [a x, b x, c x])).length = fb.length * 3 := by
  induction fb with
  | nil => rfl
  | cons x xs ih =>
    rw [List.flatMap_cons, List.length_append, ih, List.length_cons]
    simp only [List.length_cons, List.length_nil]
    omega

/-- The output loop over a vector of `height * width` elements writes the
three channel bytes of each element, element after element. -/
theorem ppm_body_eq {F : Type} [LinearOrderedField F] [FloorRing F] (fb : List (Vec3f F))
    (hlen : fb.length = height * width) :
    ppm_body fb = fb.flatMap
      (fun c => [channel_byte (c.get 0), channel_byte (c.get 1), channel_byte (c.get 2)]) := by
  unfold ppm_body
  rw [← hlen]
  conv_rhs => rw [← range_map_getD fb Vec3f.zero]
  rw [List.flatMap_map]
  rfl

/-- The framebuffer after the pixel loop: the colours of the pixels row after
row, and in each row column after column. -/
theorem framebuffer_eq {F : Type} [LinearOrderedField F] (sqrtf tan : F → F)
    (spheres : List (Sphere F)) (lights : List (Light F)) :
    framebuffer sqrtf tan spheres lights
      = (List.range height).flatMap
        (fun j => (List.range width).map (fun i => pixel_color sqrtf tan spheres lights i j)) := by
  unfold framebuffer
  exact apply_pixel_writes width height _ _

/-- The framebuffer has `width * height` elements. -/
theorem framebuffer_length {F : Type} [LinearOrderedField F] (sqrtf tan : F → F)
    (spheres : List (Sphere F)) (lights : List (Light F)) :
    (framebuffer sqrtf tan spheres lights).length = width * height := by
  have h1 : (framebuffer sqrtf tan spheres lights).length
      = ((pixel_writes width height (pixel_color sqrtf tan spheres lights)).map
          Prod.snd).length := by
    rw [pixel_writes_snd, framebuffer_eq]
  rw [h1, List.length_map, ← List.length_map _ Prod.fst, pixel_writes_fst, List.length_range]

/-- C14: the byte sequence `Renderer::render` writes is the header
`"P6\n1050 750\n255\n"` followed by the three bytes of channels `0`, `1`, `2`
of each framebuffer element in framebuffer order and nothing else; the
framebuffer holds the `width * height` pixel colours row after row, so the
header is followed by exactly `width * height * 3` bytes. -/
theorem render_bytes {F : Type} [LinearOrderedField F] [FloorRing F] (sqrtf tan : F → F)
    (spheres : List (Sphere F)) (lights : List (Light F)) :
    render sqrtf tan spheres lights
        = "P6\n1050 750\n255\n".toList.map Char.toNat
          ++ (framebuffer sqrtf tan spheres lights).flatMap
            (fun c => [channel_byte (c.get 0), channel_byte (c.get 1), channel_byte (c.get 2)]) ∧
      framebuffer sqrtf tan spheres lights
        = (List.range height).flatMap
          (fun j => (List.range width).map
            (fun i => pixel_color sqrtf tan spheres lights i j)) ∧
      ((framebuffer sqrtf tan spheres lights).flatMap
          (fun c => [channel_byte (c.get 0), channel_byte (c.get 1),
            channel_byte (c.get 2)])).length = width * height * 3 ∧
      (render sqrtf tan spheres lights).length = 16 + width * height * 3 := by
  have hlen := framebuffer_length sqrtf tan spheres lights
  have hhead : ppm_header = "P6\n1050 750\n255\n".toList.map Char.toNat := by decide
  have hbody := ppm_body_eq (framebuffer sqrtf tan spheres lights)
    (by rw [hlen, Nat.mul_comm])
  have hrender : render sqrtf tan spheres lights
      = "P6\n1050 750\n255\n".toList.map Char.toNat
        ++ (framebuffer sqrtf tan spheres lights).flatMap
          (fun c => [channel_byte (c.get 0), channel_byte (c.get 1),
            channel_byte (c.get 2)]) := by
    unfold render
    rw [hhead, hbody]
  have hblen := length_flatMap_triple (framebuffer sqrtf tan spheres lights)
    (fun c => channel_byte (c.get 0)) (fun c => channel_byte (c.get 1))
    (fun c => channel_byte (c.get 2))
  rw [hlen] at hblen
  refine ⟨hrender, framebuffer_eq sqrtf tan spheres lights, hblen, ?_⟩
  rw [hrender, List.length_append, hblen]
  rfl

/-! ## Sphere::ray_intersect in floating point arithmetic -/

/-- The floating point loop over the lights adds, for each light, its rounded
term to the accumulator and rounds the sum. -/
theorem diffuse_fl_eq_foldl {F : Type} [LinearOrderedField F] (rnd sqrtf : F → F)
    (lights : List (Light F)) (point N : Vec3f F) :
    diffuse_light_intensity_fl rnd sqrtf lights point N
      = lights.foldl (fun acc l => rnd (acc + light_term_fl rnd sqrtf point N l)) 0 := rfl

/-- An accumulation whose additions have no rounding error returns the start
value plus the sum of the terms. -/
theorem foldl_of_accumulate_exact {F : Type} [LinearOrderedField F] (rnd : F → F)
    (f : Light F → F) (lights : List (Light F)) :
    ∀ acc : F, accumulate_exact rnd f acc lights →
      lights.foldl (fun acc l => rnd (acc + f l)) acc = acc + (lights.map f).sum := by
  induction lights with
  | nil =>
    intro acc _
    simp
  | cons l ls ih =>
    intro acc h
    obtain ⟨h1, h2⟩ := h
    rw [List.foldl_cons, h1, ih _ h2, List.map_cons, List.sum_cons]
    ring

/-- The additions of an accumulation over `A ++ B` without rounding error
include those of the accumulation over `A`. -/
theorem accumulate_exact_left {F : Type} [LinearOrderedField F] (rnd : F → F)
    (f : Light F → F) (A B : List (Light F)) :
    ∀ acc : F, accumulate_exact rnd f acc (A ++ B) → accumulate_exact rnd f acc A := by
  induction A with
  | nil =>
    intro acc _
    trivial
  | cons l ls ih =>
    intro acc h
    exact ⟨h.1, ih _ h.2⟩

/-- When `Renderer::scene_intersect` returns `true`, the floating point
`Renderer::cast_ray` returns the diffuse colour it reported, each channel
multiplied by the accumulated light intensity and rounded. -/
theorem cast_ray_fl_of_hit {F : Type} [LinearOrderedField F] (rnd sqrtf : F → F)
    (orig dir : Vec3f F) (spheres : List (Sphere F)) (lights : List (Light F))
    (point N : Vec3f F) (mat : Material F)
    (h : scene_intersect_fl rnd sqrtf orig dir spheres Vec3f.zero Vec3f.zero Material.default
      = (true, point, N, mat)) :
    cast_ray_fl rnd sqrtf orig dir spheres lights
      = mat.diffuse_color.scale_fl rnd
        (diffuse_light_intensity_fl rnd sqrtf lights point N) := by
  unfold cast_ray_fl
  rw [h]

/-- C15 (amended): `Renderer::cast_ray` applies no clamp while accumulating
light: when the additions to `diffuse_light_intensity` have no rounding error
(in the accumulation over the lights `A` followed by `B` and in that over `B`
alone), the intensity accumulated for `A` followed by `B` is the sum of the
intensities accumulated for `A` and for `B`; the colour returned for a hit is
the diffuse colour with each channel multiplied by the accumulated intensity
(and rounded), and a returned channel can exceed `1`: in binary32, for the
unit sphere at `(0, 0, -5)` with colour `(1, 0, 0)` and one light of intensity
`2` at `(0, 0, -3)` the first channel is `2`. -/
theorem cast_ray_fl_unclamped {F : Type} [LinearOrderedField F] (rnd sqrtf : F → F) :
    (∀ (A B : List (Light F)) (point N : Vec3f F),
        accumulate_exact rnd (light_term_fl rnd sqrtf point N) 0 (A ++ B) →
        accumulate_exact rnd (light_term_fl rnd sqrtf point N) 0 B →
        diffuse_light_intensity_fl rnd sqrtf (A ++ B) point N
          = diffuse_light_intensity_fl rnd sqrtf A point N
            + diffuse_light_intensity_fl rnd sqrtf B point N) ∧
      (∀ (orig dir : Vec3f F) (spheres : List (Sphere F)) (lights : List (Light F))
          (point N : Vec3f F) (mat : Material F),
        scene_intersect_fl rnd sqrtf orig dir spheres Vec3f.zero Vec3f.zero Material.default
            = (true, point, N, mat) →
          cast_ray_fl rnd sqrtf orig dir spheres lights
            = mat.diffuse_color.scale_fl rnd
              (diffuse_light_intensity_fl rnd sqrtf lights point N)) ∧
      (cast_ray_fl binary32 sqrt32 ⟨0, 0, 0⟩ ⟨0, 0, -1⟩ [⟨⟨0, 0, -5⟩, 1, ⟨⟨1, 0, 0⟩⟩⟩]
          [⟨⟨0, 0, -3⟩, 2⟩]).x = 2 := by
  refine ⟨?_, ?_, by decide!⟩
  · intro A B point N hAB hB
    have hA := accumulate_exact_left rnd _ A B 0 hAB
    rw [diffuse_fl_eq_foldl, diffuse_fl_eq_foldl, diffuse_fl_eq_foldl,
      foldl_of_accumulate_exact rnd _ _ 0 hAB, foldl_of_accumulate_exact rnd _ _ 0 hA,
      foldl_of_accumulate_exact rnd _ _ 0 hB, List.map_append, List.sum_append]
    ring
  · intro orig dir spheres lights point N mat h
    exact cast_ray_fl_of_hit rnd sqrtf orig dir spheres lights point N mat h

/-- Witness of `cast_ray_fl_unclamped`: in binary32, a light of intensity `2`
at `(0, 0, -3)` followed by a light of intensity `3` at the same place, seen
from the hit point `(0, 0, -4)` with normal `(0, 0, 1)`. -/
theorem cast_ray_fl_unclamped_witness :
    diffuse_light_intensity_fl binary32 sqrt32
        ([⟨⟨0, 0, -3⟩, 2⟩] ++ [⟨⟨0, 0, -3⟩, 3⟩]) ⟨0, 0, -4⟩ ⟨0, 0, 1⟩
      = diffuse_light_intensity_fl binary32 sqrt32 [⟨⟨0, 0, -3⟩, 2⟩] ⟨0, 0, -4⟩ ⟨0, 0, 1⟩
        + diffuse_light_intensity_fl binary32 sqrt32 [⟨⟨0, 0, -3⟩, 3⟩] ⟨0, 0, -4⟩ ⟨0, 0, 1⟩ :=
  (cast_ray_fl_unclamped binary32 sqrt32).1 [⟨⟨0, 0, -3⟩, 2⟩] [⟨⟨0, 0, -3⟩, 3⟩]
    ⟨0, 0, -4⟩ ⟨0, 0, 1⟩
    (by
      simp only [List.cons_append, List.nil_append, accumulate_exact]
      decide!)
    (by
      simp only [accumulate_exact]
      decide!)

/-- C15 as stated fails in binary32: for the hit point `(0, 0, -4)` with
normal `(0, 0, 1)` and lights at `(0, 0, -3)`, the intensity accumulated for
`A` (one light of intensity `16777216`) followed by `B` (two lights of
intensity `1`) is `16777216`, while the intensities accumulated for `A` and
for `B` are `16777216` and `2`. -/
theorem diffuse_fl_not_additive :
    diffuse_light_intensity_fl binary32 sqrt32
        ([⟨⟨0, 0, -3⟩, 16777216⟩] ++ [⟨⟨0, 0, -3⟩, 1⟩, ⟨⟨0, 0, -3⟩, 1⟩])
        ⟨0, 0, -4⟩ ⟨0, 0, 1⟩ = 16777216 ∧
      diffuse_light_intensity_fl binary32 sqrt32 [⟨⟨0, 0, -3⟩, 16777216⟩]
        ⟨0, 0, -4⟩ ⟨0, 0, 1⟩ = 16777216 ∧
      diffuse_light_intensity_fl binary32 sqrt32 [⟨⟨0, 0, -3⟩, 1⟩, ⟨⟨0, 0, -3⟩, 1⟩]
        ⟨0, 0, -4⟩ ⟨0, 0, 1⟩ = 2 ∧
      (16777216 : ℚ) ≠ 16777216 + 2 := by
  decide!

/-- Rounding to the nearest integer moves a number by at most one half. -/
theorem round_even_err (q : ℚ) : |((round_even q : ℤ) : ℚ) - q| ≤ 1 / 2 := by
  have h1 : ((Int.floor q : ℤ) : ℚ) ≤ q := Int.floor_le q
  have h2 : q < (Int.floor q : ℤ) + 1 := Int.lt_floor_add_one q
  unfold round_even
  simp only
  split_ifs with ha hb hc
  · rw [abs_le]
    constructor <;> linarith
  · rw [abs_le]
    push_cast
    constructor <;> linarith
  · rw [abs_le]
    constructor <;> linarith
  · rw [abs_le]
    push_cast
    constructor <;> linarith

/-- Rounding to the nearest integer leaves an integer as it is. -/
theorem round_even_int (n : ℤ) : round_even (n : ℚ) = n := by
  unfold round_even
  simp

/-- A number has fewer than `2 ^ bit_length` as its value. -/
theorem lt_two_pow_bit_length (fuel : Nat) :
    ∀ n : Nat, n ≤ fuel → n < 2 ^ bit_length fuel n := by
  induction fuel with
  | zero =>
    intro n hn
    have : n = 0 := by omega
    subst this
    simp [bit_length]
  | succ fuel ih =>
    intro n hn
    unfold bit_length
    split_ifs with h0
    · subst h0
      simp
    · have hlt := ih (n / 2) (by omega)
      rw [pow_succ]
      omega

/-- A positive number is at least `2 ^ (bit_length - 1)`. -/
theorem two_pow_bit_length_le (fuel : Nat) :
    ∀ n : Nat, n ≤ fuel → n ≠ 0 → 2 ^ bit_length fuel n ≤ 2 * n := by
  induction fuel with
  | zero =>
    intro n hn h0
    omega
  | succ fuel ih =>
    intro n hn h0
    unfold bit_length
    rw [if_neg h0, pow_succ]
    by_cases h2 : n / 2 = 0
    · rw [h2]
      have hb : bit_length fuel 0 = 0 := by
        cases fuel <;> simp [bit_length]
      rw [hb]
      omega
    · have := ih (n / 2) (by omega) h2
      omega

/-- The binary exponent of `q ≠ 0` is a lower bound: `2 ^ ilog2 q ≤ |q|`. -/
theorem two_zpow_ilog2_le (q : ℚ) (hq : q ≠ 0) : (2 : ℚ) ^ ilog2 q ≤ |q| := by
  unfold ilog2
  simp only
  split_ifs with h
  · exact h
  · have hnum : q.num.natAbs ≠ 0 := by
      intro h0
      apply hq
      rw [Int.natAbs_eq_zero] at h0
      exact Rat.zero_of_num_zero h0
    have hden : q.den ≠ 0 := q.den_nz
    have h1 := two_pow_bit_length_le q.num.natAbs q.num.natAbs (le_refl _) hnum
    have h2 := lt_two_pow_bit_length q.den q.den (le_refl _)
    have habs : |q| = (q.num.natAbs : ℚ) / (q.den : ℚ) := by
      rw [Rat.abs_def]
      rw [Rat.divInt_eq_div]
      push_cast
      rw [Nat.cast_natAbs, Int.cast_abs]
    rw [habs]
    have hd0 : (0 : ℚ) < (q.den : ℚ) := by exact_mod_cast Nat.pos_of_ne_zero hden
    rw [le_div_iff₀ hd0]
    have h1' : (2 : ℚ) ^ (bit_length q.num.natAbs q.num.natAbs) ≤ 2 * (q.num.natAbs : ℚ) := by
      exact_mod_cast h1
    have h2' : (q.den : ℚ) ≤ (2 : ℚ) ^ (bit_length q.den q.den) := by
      exact_mod_cast le_of_lt h2
    have hpow : (2 : ℚ) ^ ((bit_length q.num.natAbs q.num.natAbs : ℤ)
        - (bit_length q.den q.den : ℤ) - 1)
        = (2 : ℚ) ^ (bit_length q.num.natAbs q.num.natAbs)
          / (2 : ℚ) ^ (bit_length q.den q.den) / 2 := by
      rw [zpow_sub₀ (by norm_num : (2 : ℚ) ≠ 0), zpow_sub₀ (by norm_num : (2 : ℚ) ≠ 0)]
      simp
    rw [hpow]
    have hp0 : (0 : ℚ) < (2 : ℚ) ^ (bit_length q.den q.den) := by positivity
    rw [div_div, div_mul_eq_mul_div, div_le_iff₀ (by positivity)]
    calc (2 : ℚ) ^ (bit_length q.num.natAbs q.num.natAbs) * (q.den : ℚ)
        ≤ 2 * (q.num.natAbs : ℚ) * (2 : ℚ) ^ (bit_length q.den q.den) := by
          apply mul_le_mul h1' h2' (le_of_lt hd0) (by positivity)
      _ = (q.num.natAbs : ℚ) * ((2 : ℚ) ^ (bit_length q.den q.den) * 2) := by ring

/-- The scale of the significand: `2 ^ (e - (p - 1)) = 2 ^ e * 2 / 2 ^ p`. -/
theorem two_zpow_scale (e : ℤ) (p : Nat) :
    (2 : ℚ) ^ (e - ((p : ℤ) - 1)) = (2 : ℚ) ^ e * 2 / 2 ^ p := by
  rw [zpow_sub₀ (by norm_num : (2 : ℚ) ≠ 0), zpow_sub₀ (by norm_num : (2 : ℚ) ≠ 0),
    zpow_natCast, zpow_one]
  field_simp

/-- The standard model of floating point arithmetic: rounding to `p` bits
changes a number by at most its `2 ^ (-p)`-th part. -/
theorem round_to_rel (p : Nat) (q : ℚ) : |round_to p q - q| ≤ |q| / 2 ^ p := by
  unfold round_to
  split_ifs with h0
  · rw [h0]
    simp
  · have hs := two_zpow_scale (ilog2 q) p
    have hspos : (0 : ℚ) < (2 : ℚ) ^ (ilog2 q - ((p : ℤ) - 1)) := by positivity
    have herr := round_even_err (q / (2 : ℚ) ^ (ilog2 q - ((p : ℤ) - 1)))
    have hle := two_zpow_ilog2_le q h0
    generalize (2 : ℚ) ^ (ilog2 q - ((p : ℤ) - 1)) = s at hs hspos herr
    have h1 : ((round_even (q / s) : ℤ) : ℚ) * s - q
        = (((round_even (q / s) : ℤ) : ℚ) - q / s) * s := by
      field_simp
    rw [h1, abs_mul, abs_of_pos hspos]
    have hp : (0 : ℚ) < 2 ^ p := by positivity
    have h2 : 1 / 2 * s ≤ |q| / 2 ^ p := by
      rw [hs, le_div_iff₀ hp]
      have : 1 / 2 * ((2 : ℚ) ^ ilog2 q * 2 / 2 ^ p) * 2 ^ p = (2 : ℚ) ^ ilog2 q := by
        field_simp
      rw [this]
      exact hle
    calc |((round_even (q / s) : ℤ) : ℚ) - q / s| * s ≤ 1 / 2 * s :=
          mul_le_mul_of_nonneg_right herr (le_of_lt hspos)
      _ ≤ |q| / 2 ^ p := h2

/-- Rounding to `p ≥ 1` bits keeps the sign: a positive number is rounded to
a positive number. -/
theorem round_to_pos (p : Nat) (hp : 1 ≤ p) (q : ℚ) (hq : 0 < q) : 0 < round_to p q := by
  have h := round_to_rel p q
  rw [abs_of_pos hq] at h
  have h2 : q / 2 ^ p ≤ q / 2 := by
    apply div_le_div_of_nonneg_left (le_of_lt hq) (by norm_num)
    calc (2 : ℚ) = 2 ^ 1 := by norm_num
      _ ≤ 2 ^ p := pow_le_pow_right₀ (by norm_num) hp
  have h3 := (abs_le.mp (le_trans h h2)).1
  linarith

/-- A number `m * 2 ^ k` with `|m| < 2 ^ p` is a floating point number with a
significand of `p` bits: rounding leaves it as it is. -/
theorem round_to_fix (p : Nat) (m k : ℤ) (hm : |m| < 2 ^ p) :
    round_to p ((m : ℚ) * 2 ^ k) = (m : ℚ) * 2 ^ k := by
  unfold round_to
  split_ifs with h0
  · rw [h0]
  · have hle := two_zpow_ilog2_le _ h0
    generalize ilog2 ((m : ℚ) * 2 ^ k) = e at hle
    have hkpos : (0 : ℚ) < 2 ^ k := by positivity
    rw [abs_mul, abs_of_pos hkpos] at hle
    have hmq : |(m : ℚ)| < 2 ^ (p : ℤ) := by
      rw [zpow_natCast]
      have : ((|m| : ℤ) : ℚ) < ((2 ^ p : ℤ) : ℚ) := by exact_mod_cast hm
      rw [Int.cast_abs] at this
      push_cast at this
      exact this
    have hlt : (2 : ℚ) ^ e < 2 ^ ((p : ℤ) + k) := by
      rw [zpow_add₀ (by norm_num : (2 : ℚ) ≠ 0)]
      calc (2 : ℚ) ^ e ≤ |(m : ℚ)| * 2 ^ k := hle
        _ < 2 ^ (p : ℤ) * 2 ^ k := mul_lt_mul_of_pos_right hmq hkpos
    have he : e < (p : ℤ) + k := (zpow_lt_zpow_iff_right₀ (by norm_num : (1 : ℚ) < 2)).mp hlt
    have hj : 0 ≤ k - (e - ((p : ℤ) - 1)) := by omega
    obtain ⟨j, hj2⟩ := Int.eq_ofNat_of_zero_le hj
    have hdiv : (m : ℚ) * 2 ^ k / 2 ^ (e - ((p : ℤ) - 1)) = ((m * 2 ^ j : ℤ) : ℚ) := by
      rw [mul_div_assoc, ← zpow_sub₀ (by norm_num : (2 : ℚ) ≠ 0), hj2, zpow_natCast]
      push_cast
      rfl
    rw [hdiv, round_even_int]
    push_cast
    rw [mul_assoc, ← zpow_natCast, ← hj2, ← zpow_add₀ (by norm_num : (2 : ℚ) ≠ 0)]
    congr 2
    ring

/-- Half-integers below `2 ^ 23` in absolute value are binary32 numbers. -/
theorem binary32_fix_half (k : ℤ) (hk : |k| < 2 ^ 24) : binary32 ((k : ℚ) / 2) = (k : ℚ) / 2 := by
  have h := round_to_fix 24 k (-1) hk
  have h2 : (k : ℚ) * 2 ^ (-1 : ℤ) = (k : ℚ) / 2 := by
    rw [zpow_neg, zpow_one]
    rfl
  rw [h2] at h
  exact h

/-- Half-integers below `2 ^ 23` in absolute value are binary64 numbers. -/
theorem binary64_fix_half (k : ℤ) (hk : |k| < 2 ^ 24) : binary64 ((k : ℚ) / 2) = (k : ℚ) / 2 := by
  have hk2 : |k| < 2 ^ 53 := lt_trans hk (by norm_num)
  have h := round_to_fix 53 k (-1) hk2
  have h2 : (k : ℚ) * 2 ^ (-1 : ℤ) = (k : ℚ) / 2 := by
    rw [zpow_neg, zpow_one]
    rfl
  rw [h2] at h
  exact h

/-- The bisection keeps the bracket of the integer square root. -/
theorem isqrt_bits_spec (n : Nat) :
    ∀ (k r : Nat), r * r ≤ n → n < (r + 2 ^ k) * (r + 2 ^ k) →
      isqrt_bits k n r * isqrt_bits k n r ≤ n ∧
        n < (isqrt_bits k n r + 1) * (isqrt_bits k n r + 1) := by
  intro k
  induction k with
  | zero =>
    intro r h1 h2
    unfold isqrt_bits
    simpa using ⟨h1, h2⟩
  | succ k ih =>
    intro r h1 h2
    unfold isqrt_bits
    split_ifs with hc
    · apply ih _ hc
      have : r + 2 ^ k + 2 ^ k = r + 2 ^ (k + 1) := by rw [pow_succ]; omega
      rw [this]
      exact h2
    · exact ih r h1 (not_le.mp hc)

/-- The integer square root `m` of `n` satisfies `m² ≤ n < (m + 1)²`. -/
theorem isqrt_spec (n : Nat) : isqrt n * isqrt n ≤ n ∧ n < (isqrt n + 1) * (isqrt n + 1) := by
  unfold isqrt
  apply isqrt_bits_spec n _ 0 (by simp)
  have h := lt_two_pow_bit_length n n (le_refl _)
  have h1 : 1 ≤ 2 ^ bit_length n n := Nat.one_le_two_pow
  calc n < 2 ^ bit_length n n := h
    _ = 2 ^ bit_length n n * 1 := by ring
    _ ≤ 2 ^ bit_length n n * 2 ^ bit_length n n := Nat.mul_le_mul_left _ h1
    _ = (0 + 2 ^ bit_length n n) * (0 + 2 ^ bit_length n n) := by ring

/-- The two candidates `M * U` and `(M + 1) * U` around a square root, chosen
by comparison with the midpoint, are within the relative error `c` of the
root when `M` has enough digits. -/
theorem sqrt_round_bounds (M U q c : ℚ) (hU : 0 < U) (hM : 1 ≤ M) (hc0 : 0 < c) (hc1 : c ≤ 1)
    (hcM : 1 ≤ c * (2 * M + 1)) (hlo : M * U * (M * U) ≤ q)
    (hhi : q < (M + 1) * U * ((M + 1) * U)) :
    (q ≤ (M + 1 / 2) * U * ((M + 1 / 2) * U) →
        (1 - c) ^ 2 * q ≤ M * U * (M * U) ∧ M * U * (M * U) ≤ (1 + c) ^ 2 * q) ∧
      ((M + 1 / 2) * U * ((M + 1 / 2) * U) ≤ q →
        (1 - c) ^ 2 * q ≤ (M + 1) * U * ((M + 1) * U) ∧
          (M + 1) * U * ((M + 1) * U) ≤ (1 + c) ^ 2 * q) := by
  have hq : 0 < q := lt_of_lt_of_le (by positivity) hlo
  have hU2 : 0 ≤ U * U := le_of_lt (mul_pos hU hU)
  have h1c : 0 ≤ 1 - c := by linarith
  constructor
  · intro hmid
    constructor
    · have hk : (1 - c) * (M + 1 / 2) ≤ M := by nlinarith
      have hk0 : 0 ≤ (1 - c) * (M + 1 / 2) := mul_nonneg h1c (by linarith)
      have hsq : ((1 - c) * (M + 1 / 2)) ^ 2 ≤ M ^ 2 := pow_le_pow_left₀ hk0 hk 2
      calc (1 - c) ^ 2 * q ≤ (1 - c) ^ 2 * ((M + 1 / 2) * U * ((M + 1 / 2) * U)) :=
            mul_le_mul_of_nonneg_left hmid (sq_nonneg _)
        _ = ((1 - c) * (M + 1 / 2)) ^ 2 * (U * U) := by ring
        _ ≤ M ^ 2 * (U * U) := mul_le_mul_of_nonneg_right hsq hU2
        _ = M * U * (M * U) := by ring
    · calc M * U * (M * U) ≤ q := hlo
        _ = 1 * q := by ring
        _ ≤ (1 + c) ^ 2 * q := by
          apply mul_le_mul_of_nonneg_right _ (le_of_lt hq)
          nlinarith
  · intro hmid
    constructor
    · calc (1 - c) ^ 2 * q ≤ 1 * q := by
            apply mul_le_mul_of_nonneg_right _ (le_of_lt hq)
            nlinarith
        _ = q := by ring
        _ ≤ (M + 1) * U * ((M + 1) * U) := le_of_lt hhi
    · have hk : M + 1 ≤ (1 + c) * (M + 1 / 2) := by nlinarith
      have hk0 : 0 ≤ M + 1 := by linarith
      have hsq : (M + 1) ^ 2 ≤ ((1 + c) * (M + 1 / 2)) ^ 2 := pow_le_pow_left₀ hk0 hk 2
      calc (M + 1) * U * ((M + 1) * U) = (M + 1) ^ 2 * (U * U) := by ring
        _ ≤ ((1 + c) * (M + 1 / 2)) ^ 2 * (U * U) := mul_le_mul_of_nonneg_right hsq hU2
        _ = (1 + c) ^ 2 * ((M + 1 / 2) * U * ((M + 1 / 2) * U)) := by ring
        _ ≤ (1 + c) ^ 2 * q := mul_le_mul_of_nonneg_left hmid (sq_nonneg _)

/-- The correctly rounded square root with `p ≥ 1` bits of a positive number
is positive and its square is the number up to the factor
`(1 ± 2 ^ (-p))²`. -/
theorem sqrt_to_spec (p : Nat) (hp : 1 ≤ p) (q : ℚ) (hq : 0 < q) :
    0 < sqrt_to p q ∧
      (1 - 1 / 2 ^ p) ^ 2 * q ≤ sqrt_to p q * sqrt_to p q ∧
      sqrt_to p q * sqrt_to p q ≤ (1 + 1 / 2 ^ p) ^ 2 * q := by
  have hle := two_zpow_ilog2_le q (ne_of_gt hq)
  rw [abs_of_pos hq] at hle
  have hscale := two_zpow_scale (ilog2 q / 2) p
  have hUpos : (0 : ℚ) < (2 : ℚ) ^ (ilog2 q / 2 - ((p : ℤ) - 1)) := by positivity
  unfold sqrt_to
  rw [if_neg (not_le.mpr hq)]
  simp only
  generalize (2 : ℚ) ^ (ilog2 q / 2 - ((p : ℤ) - 1)) = U at hscale hUpos
  -- the scaled radicand has at least `2 * (p - 1)` bits
  have hpp : (0 : ℚ) < 2 ^ p := by positivity
  have hh : ((2 : ℚ) ^ (ilog2 q / 2)) * ((2 : ℚ) ^ (ilog2 q / 2)) ≤ q := by
    rw [← zpow_add₀ (by norm_num : (2 : ℚ) ≠ 0)]
    calc (2 : ℚ) ^ (ilog2 q / 2 + ilog2 q / 2) ≤ (2 : ℚ) ^ ilog2 q :=
          zpow_le_zpow_right₀ (by norm_num) (by omega)
      _ ≤ q := hle
  have hbig : ((2 : ℚ) ^ p / 2) * ((2 : ℚ) ^ p / 2) ≤ q / (U * U) := by
    rw [le_div_iff₀ (mul_pos hUpos hUpos)]
    have : (2 : ℚ) ^ p / 2 * ((2 : ℚ) ^ p / 2) * (U * U)
        = ((2 : ℚ) ^ (ilog2 q / 2)) * ((2 : ℚ) ^ (ilog2 q / 2)) := by
      rw [hscale]
      field_simp
      ring
    rw [this]
    exact hh
  have hfl0 : (0 : ℤ) ≤ Int.floor (q / (U * U)) :=
    Int.floor_nonneg.mpr (le_of_lt (div_pos hq (mul_pos hUpos hUpos)))
  have hN : ((Int.toNat (Int.floor (q / (U * U))) : ℕ) : ℚ)
      = ((Int.floor (q / (U * U)) : ℤ) : ℚ) := by
    have := Int.toNat_of_nonneg hfl0
    exact_mod_cast congrArg (fun z : ℤ => (z : ℚ)) this
  obtain ⟨hm1, hm2⟩ := isqrt_spec (Int.toNat (Int.floor (q / (U * U))))
  -- the integer square root has at least `p` bits
  have hpow : (2 : ℚ) ^ p / 2 = ((2 ^ (p - 1) : ℕ) : ℚ) := by
    obtain ⟨k, hk⟩ := Nat.exists_eq_add_of_le hp
    rw [hk]
    push_cast
    rw [Nat.add_sub_cancel_left, pow_add]
    ring
  have hNbig : 2 ^ (p - 1) * 2 ^ (p - 1) ≤ Int.toNat (Int.floor (q / (U * U))) := by
    have h1 : ((2 ^ (p - 1) * 2 ^ (p - 1) : ℕ) : ℚ) ≤ q / (U * U) := by
      push_cast
      rw [hpow] at hbig
      exact_mod_cast hbig
    have h2 : ((2 ^ (p - 1) * 2 ^ (p - 1) : ℕ) : ℤ) ≤ Int.floor (q / (U * U)) := by
      apply Int.le_floor.mpr
      exact_mod_cast h1
    omega
  have hmbig : 2 ^ (p - 1) ≤ isqrt (Int.toNat (Int.floor (q / (U * U)))) := by
    by_contra hcon
    have hlt : isqrt (Int.toNat (Int.floor (q / (U * U)))) + 1 ≤ 2 ^ (p - 1) := by omega
    have := Nat.mul_le_mul hlt hlt
    omega
  have hMbig : (2 : ℚ) ^ p / 2 ≤ ((isqrt (Int.toNat (Int.floor (q / (U * U)))) : ℕ) : ℚ) := by
    rw [hpow]
    exact_mod_cast hmbig
  have hm1' : ((isqrt (Int.toNat (Int.floor (q / (U * U)))) : ℕ) : ℚ)
      * (isqrt (Int.toNat (Int.floor (q / (U * U)))) : ℕ)
      ≤ ((Int.toNat (Int.floor (q / (U * U))) : ℕ) : ℚ) := by exact_mod_cast hm1
  have hm2' : ((Int.toNat (Int.floor (q / (U * U))) : ℕ) : ℚ) + 1
      ≤ (((isqrt (Int.toNat (Int.floor (q / (U * U)))) : ℕ) : ℚ) + 1)
        * (((isqrt (Int.toNat (Int.floor (q / (U * U)))) : ℕ) : ℚ) + 1) := by
    exact_mod_cast hm2
  have hf1 : ((Int.floor (q / (U * U)) : ℤ) : ℚ) ≤ q / (U * U) := Int.floor_le _
  have hf2 : q / (U * U) < ((Int.floor (q / (U * U)) : ℤ) : ℚ) + 1 := Int.lt_floor_add_one _
  rw [hN] at hm1' hm2'
  have hUU : (0 : ℚ) < U * U := mul_pos hUpos hUpos
  generalize ((isqrt (Int.toNat (Int.floor (q / (U * U)))) : ℕ) : ℚ) = M at hm1' hm2' hMbig ⊢
  have hP1 : (1 : ℚ) ≤ 2 ^ p / 2 := by
    rw [hpow]
    exact_mod_cast Nat.one_le_two_pow
  have hM : 1 ≤ M := le_trans hP1 hMbig
  have hlo : M * U * (M * U) ≤ q := by
    have h1 : M * M ≤ q / (U * U) := le_trans hm1' hf1
    rw [le_div_iff₀ hUU] at h1
    linarith
  have hhi : q < (M + 1) * U * ((M + 1) * U) := by
    have h1 : q / (U * U) < (M + 1) * (M + 1) := lt_of_lt_of_le hf2 hm2'
    rw [div_lt_iff₀ hUU] at h1
    linarith
  have hc0 : (0 : ℚ) < 1 / 2 ^ p := by positivity
  have hc1 : (1 : ℚ) / 2 ^ p ≤ 1 := by
    rw [div_le_iff₀ hpp]
    linarith
  have hcM : 1 ≤ 1 / 2 ^ p * (2 * M + 1) := by
    rw [one_div, inv_mul_eq_div, le_div_iff₀ hpp]
    linarith
  obtain ⟨hA, hB⟩ := sqrt_round_bounds M U q (1 / 2 ^ p) hUpos hM hc0 hc1 hcM hlo hhi
  have hposlo : 0 < M * U := mul_pos (by linarith) hUpos
  have hposhi : 0 < (M + 1) * U := mul_pos (by linarith) hUpos
  split_ifs with h1 h2 h3
  · exact ⟨hposlo, hA (le_of_lt h1)⟩
  · exact ⟨hposhi, hB (le_of_lt h2)⟩
  · exact ⟨hposlo, hA (not_lt.mp h2)⟩
  · exact ⟨hposhi, hB (not_lt.mp h1)⟩

/-- The correctly rounded square root of a number that is not positive is
`0`. -/
theorem sqrt_to_nonpos (p : Nat) (q : ℚ) (hq : q ≤ 0) : sqrt_to p q = 0 := by
  unfold sqrt_to
  rw [if_pos hq]

/-! ## The rounding error of a normalization -/

/-- A non-negative number is rounded to a number within the relative error
`u`. -/
theorem rel_bounds_nonneg {F : Type} [LinearOrderedField F] (rnd : F → F) (u : F)
    (hrel : ∀ q, |rnd q - q| ≤ u * |q|) (x : F) (hx : 0 ≤ x) :
    (1 - u) * x ≤ rnd x ∧ rnd x ≤ (1 + u) * x := by
  have h := hrel x
  rw [abs_of_nonneg hx] at h
  have h2 := abs_le.mp h
  constructor <;> linarith [h2.1, h2.2]

/-- The square of a rounded number is the square of the number up to the
factor `(1 ± u)²`. -/
theorem rel_bounds_sq {F : Type} [LinearOrderedField F] (rnd : F → F) (u : F)
    (hu0 : 0 ≤ u) (hu1 : u ≤ 1) (hrel : ∀ q, |rnd q - q| ≤ u * |q|) (x : F) :
    (1 - u) ^ 2 * (x * x) ≤ rnd x * rnd x ∧ rnd x * rnd x ≤ (1 + u) ^ 2 * (x * x) := by
  have h := hrel x
  have h1 : |rnd x| ≤ (1 + u) * |x| := by
    have := abs_sub_abs_le_abs_sub (rnd x) x
    linarith
  have h2 : (1 - u) * |x| ≤ |rnd x| := by
    have := abs_sub_abs_le_abs_sub x (rnd x)
    rw [abs_sub_comm] at this
    linarith
  have hx0 : 0 ≤ |x| := abs_nonneg x
  have hr0 : 0 ≤ |rnd x| := abs_nonneg (rnd x)
  have hsx : x * x = |x| * |x| := (abs_mul_abs_self x).symm
  have hsr : rnd x * rnd x = |rnd x| * |rnd x| := (abs_mul_abs_self (rnd x)).symm
  rw [hsx, hsr]
  constructor
  · have h3 : 0 ≤ (1 - u) * |x| := mul_nonneg (by linarith) hx0
    have := mul_le_mul h2 h2 h3 hr0
    calc (1 - u) ^ 2 * (|x| * |x|) = (1 - u) * |x| * ((1 - u) * |x|) := by ring
      _ ≤ |rnd x| * |rnd x| := this
  · have h3 : 0 ≤ (1 + u) * |x| := mul_nonneg (by linarith) hx0
    have := mul_le_mul h1 h1 hr0 h3
    calc |rnd x| * |rnd x| ≤ (1 + u) * |x| * ((1 + u) * |x|) := this
      _ = (1 + u) ^ 2 * (|x| * |x|) := by ring

/-- The rounded sum of the rounded squares of the components of a vector is
the squared length up to the factor `(1 ± u)³`. -/
theorem dot_fl_self_bounds {F : Type} [LinearOrderedField F] (rnd : F → F) (u : F)
    (hu0 : 0 ≤ u) (hu1 : u ≤ 1) (hrel : ∀ q, |rnd q - q| ≤ u * |q|) (v : Vec3f F) :
    (1 - u) ^ 3 * v.dot v ≤ v.dot_fl rnd v ∧ v.dot_fl rnd v ≤ (1 + u) ^ 3 * v.dot v := by
  have ha : 0 ≤ 1 - u := by linarith
  have hb : 1 ≤ 1 + u := by linarith
  have hx := rel_bounds_nonneg rnd u hrel (v.x * v.x) (mul_self_nonneg _)
  have hy := rel_bounds_nonneg rnd u hrel (v.y * v.y) (mul_self_nonneg _)
  have hz := rel_bounds_nonneg rnd u hrel (v.z * v.z) (mul_self_nonneg _)
  have hx0 : 0 ≤ rnd (v.x * v.x) := le_trans (mul_nonneg ha (mul_self_nonneg _)) hx.1
  have hy0 : 0 ≤ rnd (v.y * v.y) := le_trans (mul_nonneg ha (mul_self_nonneg _)) hy.1
  have hz0 : 0 ≤ rnd (v.z * v.z) := le_trans (mul_nonneg ha (mul_self_nonneg _)) hz.1
  have h12 := rel_bounds_nonneg rnd u hrel (rnd (v.x * v.x) + rnd (v.y * v.y))
    (add_nonneg hx0 hy0)
  have h120 : 0 ≤ rnd (rnd (v.x * v.x) + rnd (v.y * v.y)) :=
    le_trans (mul_nonneg ha (add_nonneg hx0 hy0)) h12.1
  have h3 := rel_bounds_nonneg rnd u hrel
    (rnd (rnd (v.x * v.x) + rnd (v.y * v.y)) + rnd (v.z * v.z)) (add_nonneg h120 hz0)
  unfold Vec3f.dot_fl Vec3f.dot
  generalize rnd (rnd (rnd (v.x * v.x) + rnd (v.y * v.y)) + rnd (v.z * v.z)) = B at h3
  generalize rnd (rnd (v.x * v.x) + rnd (v.y * v.y)) = s12 at h12 h120 h3
  generalize rnd (v.x * v.x) = sx at hx hx0 h12
  generalize rnd (v.y * v.y) = sy at hy hy0 h12
  generalize rnd (v.z * v.z) = sz at hz hz0 h3
  have hX : 0 ≤ v.x * v.x := mul_self_nonneg _
  have hY : 0 ≤ v.y * v.y := mul_self_nonneg _
  have hZ : 0 ≤ v.z * v.z := mul_self_nonneg _
  generalize v.x * v.x = X at hx hX
  generalize v.y * v.y = Y at hy hY
  generalize v.z * v.z = Z at hz hZ
  have ha2 : 0 ≤ (1 - u) ^ 2 := sq_nonneg _
  have hb0 : 0 ≤ 1 + u := by linarith
  have ha1 : 1 - u ≤ 1 := by linarith
  constructor
  · -- lower bound
    have l1 : (1 - u) * ((1 - u) * X + (1 - u) * Y) ≤ s12 :=
      le_trans (mul_le_mul_of_nonneg_left (by linarith [hx.1, hy.1]) ha) h12.1
    have l2 : (1 - u) * ((1 - u) * ((1 - u) * X + (1 - u) * Y) + (1 - u) * Z) ≤ B :=
      le_trans (mul_le_mul_of_nonneg_left (by linarith [hz.1]) ha) h3.1
    have l3 : (1 - u) ^ 3 * Z ≤ (1 - u) ^ 2 * Z := by
      have : (1 - u) ^ 3 ≤ (1 - u) ^ 2 := by
        have := mul_le_mul_of_nonneg_left ha1 ha2
        calc (1 - u) ^ 3 = (1 - u) ^ 2 * (1 - u) := by ring
          _ ≤ (1 - u) ^ 2 * 1 := this
          _ = (1 - u) ^ 2 := by ring
      exact mul_le_mul_of_nonneg_right this hZ
    calc (1 - u) ^ 3 * (X + Y + Z) = (1 - u) ^ 3 * (X + Y) + (1 - u) ^ 3 * Z := by ring
      _ ≤ (1 - u) ^ 3 * (X + Y) + (1 - u) ^ 2 * Z := by linarith
      _ = (1 - u) * ((1 - u) * ((1 - u) * X + (1 - u) * Y) + (1 - u) * Z) := by ring
      _ ≤ B := l2
  · -- upper bound
    have r1 : s12 ≤ (1 + u) * ((1 + u) * X + (1 + u) * Y) :=
      le_trans h12.2 (mul_le_mul_of_nonneg_left (by linarith [hx.2, hy.2]) hb0)
    have r2 : B ≤ (1 + u) * ((1 + u) * ((1 + u) * X + (1 + u) * Y) + (1 + u) * Z) :=
      le_trans h3.2 (mul_le_mul_of_nonneg_left (by linarith [hz.2]) hb0)
    have hb2 : 0 ≤ (1 + u) ^ 2 := sq_nonneg _
    have r3 : (1 + u) ^ 2 * Z ≤ (1 + u) ^ 3 * Z := by
      have : (1 + u) ^ 2 ≤ (1 + u) ^ 3 := by
        have := mul_le_mul_of_nonneg_left hb hb2
        calc (1 + u) ^ 2 = (1 + u) ^ 2 * 1 := by ring
          _ ≤ (1 + u) ^ 2 * (1 + u) := this
          _ = (1 + u) ^ 3 := by ring
      exact mul_le_mul_of_nonneg_right this hZ
    calc B ≤ (1 + u) * ((1 + u) * ((1 + u) * X + (1 + u) * Y) + (1 + u) * Z) := r2
      _ = (1 + u) ^ 3 * (X + Y) + (1 + u) ^ 2 * Z := by ring
      _ ≤ (1 + u) ^ 3 * (X + Y) + (1 + u) ^ 3 * Z := by linarith
      _ = (1 + u) ^ 3 * (X + Y + Z) := by ring

/-- The squared length `W` of a vector normalized in floating point arithmetic
with relative rounding error `u`, correctly rounded square root included,
satisfies `(1 - u)⁴ ≤ W (1 + u)⁵` and `W (1 - u)⁵ ≤ (1 + u)⁴`. -/
theorem normalize_fl_sq_bounds {F : Type} [LinearOrderedField F] (rnd sqrtf : F → F) (u : F)
    (hu0 : 0 ≤ u) (hu1 : u < 1) (hrel : ∀ q, |rnd q - q| ≤ u * |q|)
    (hsqrt : ∀ q, 0 < q → 0 < sqrtf q ∧ (1 - u) ^ 2 * q ≤ sqrtf q * sqrtf q ∧
      sqrtf q * sqrtf q ≤ (1 + u) ^ 2 * q)
    (v : Vec3f F) (hv : 0 < v.dot v) :
    (1 - u) ^ 4 ≤
        (v.normalize_fl rnd sqrtf).dot (v.normalize_fl rnd sqrtf) * (1 + u) ^ 5 ∧
      (v.normalize_fl rnd sqrtf).dot (v.normalize_fl rnd sqrtf) * (1 - u) ^ 5 ≤
        (1 + u) ^ 4 := by
  have ha : 0 < 1 - u := by linarith
  have hb : 0 < 1 + u := by linarith
  have hB := dot_fl_self_bounds rnd u hu0 hu1.le hrel v
  have hB0 : 0 < v.dot_fl rnd v := lt_of_lt_of_le (mul_pos (pow_pos ha 3) hv) hB.1
  obtain ⟨hn0, hn1, hn2⟩ := hsqrt (v.dot_fl rnd v) hB0
  have hinv := rel_bounds_nonneg rnd u hrel (1 / sqrtf (v.dot_fl rnd v))
    (le_of_lt (one_div_pos.mpr hn0))
  have hx := rel_bounds_sq rnd u hu0 hu1.le hrel (v.x * rnd (1 / sqrtf (v.dot_fl rnd v)))
  have hy := rel_bounds_sq rnd u hu0 hu1.le hrel (v.y * rnd (1 / sqrtf (v.dot_fl rnd v)))
  have hz := rel_bounds_sq rnd u hu0 hu1.le hrel (v.z * rnd (1 / sqrtf (v.dot_fl rnd v)))
  have hW : (v.normalize_fl rnd sqrtf).dot (v.normalize_fl rnd sqrtf) =
      rnd (v.x * rnd (1 / sqrtf (v.dot_fl rnd v))) * rnd (v.x * rnd (1 / sqrtf (v.dot_fl rnd v))) +
      rnd (v.y * rnd (1 / sqrtf (v.dot_fl rnd v))) * rnd (v.y * rnd (1 / sqrtf (v.dot_fl rnd v))) +
      rnd (v.z * rnd (1 / sqrtf (v.dot_fl rnd v))) * rnd (v.z * rnd (1 / sqrtf (v.dot_fl rnd v))) := rfl
  rw [hW]
  generalize rnd (v.x * rnd (1 / sqrtf (v.dot_fl rnd v))) = wx at hx
  generalize rnd (v.y * rnd (1 / sqrtf (v.dot_fl rnd v))) = wy at hy
  generalize rnd (v.z * rnd (1 / sqrtf (v.dot_fl rnd v))) = wz at hz
  generalize rnd (1 / sqrtf (v.dot_fl rnd v)) = inv at hinv hx hy hz
  generalize sqrtf (v.dot_fl rnd v) = n at hn0 hn1 hn2 hinv
  generalize v.dot_fl rnd v = B at hB hB0 hn1 hn2
  have hS : v.dot v = v.x * v.x + v.y * v.y + v.z * v.z := rfl
  rw [hS] at hB hv
  generalize hSd : v.x * v.x + v.y * v.y + v.z * v.z = S at hB hv
  -- the squared length in terms of the rounded reciprocal
  have hWl : (1 - u) ^ 2 * (S * (inv * inv)) ≤ wx * wx + wy * wy + wz * wz := by
    have : (1 - u) ^ 2 * (S * (inv * inv)) =
        (1 - u) ^ 2 * (v.x * inv * (v.x * inv)) + (1 - u) ^ 2 * (v.y * inv * (v.y * inv)) +
          (1 - u) ^ 2 * (v.z * inv * (v.z * inv)) := by rw [← hSd]; ring
    rw [this]; linarith [hx.1, hy.1, hz.1]
  have hWu : wx * wx + wy * wy + wz * wz ≤ (1 + u) ^ 2 * (S * (inv * inv)) := by
    have : (1 + u) ^ 2 * (S * (inv * inv)) =
        (1 + u) ^ 2 * (v.x * inv * (v.x * inv)) + (1 + u) ^ 2 * (v.y * inv * (v.y * inv)) +
          (1 + u) ^ 2 * (v.z * inv * (v.z * inv)) := by rw [← hSd]; ring
    rw [this]; linarith [hx.2, hy.2, hz.2]
  generalize wx * wx + wy * wy + wz * wz = W at hWl hWu
  -- the rounded reciprocal times the rounded length
  have hn : n ≠ 0 := ne_of_gt hn0
  have hin1 : 1 - u ≤ inv * n := by
    have := mul_le_mul_of_nonneg_right hinv.1 hn0.le
    have e : (1 - u) * (1 / n) * n = 1 - u := by field_simp
    linarith
  have hin2 : inv * n ≤ 1 + u := by
    have := mul_le_mul_of_nonneg_right hinv.2 hn0.le
    have e : (1 + u) * (1 / n) * n = 1 + u := by field_simp
    linarith
  have hin0 : 0 ≤ inv * n := le_trans ha.le hin1
  have hq1 : (1 - u) ^ 2 ≤ (inv * n) * (inv * n) := by
    have := mul_le_mul hin1 hin1 ha.le hin0
    calc (1 - u) ^ 2 = (1 - u) * (1 - u) := by ring
      _ ≤ _ := this
  have hq2 : (inv * n) * (inv * n) ≤ (1 + u) ^ 2 := by
    have := mul_le_mul hin2 hin2 hin0 hb.le
    calc (inv * n) * (inv * n) ≤ (1 + u) * (1 + u) := this
      _ = (1 + u) ^ 2 := by ring
  have hnn : 0 < n * n := mul_pos hn0 hn0
  have hW0 : 0 ≤ W := by
    have h1 : 0 ≤ (1 - u) ^ 2 * (S * (inv * inv)) :=
      mul_nonneg (sq_nonneg _) (mul_nonneg hv.le (mul_self_nonneg _))
    linarith
  -- W * n² between (1 - u)⁴ S and (1 + u)⁴ S
  have hWn1 : (1 - u) ^ 4 * S ≤ W * (n * n) := by
    have h1 := mul_le_mul_of_nonneg_right hWl hnn.le
    have h2 : (1 - u) ^ 2 * S * (1 - u) ^ 2 ≤ (1 - u) ^ 2 * S * ((inv * n) * (inv * n)) :=
      mul_le_mul_of_nonneg_left hq1 (mul_nonneg (sq_nonneg _) hv.le)
    calc (1 - u) ^ 4 * S = (1 - u) ^ 2 * S * (1 - u) ^ 2 := by ring
      _ ≤ (1 - u) ^ 2 * S * ((inv * n) * (inv * n)) := h2
      _ = (1 - u) ^ 2 * (S * (inv * inv)) * (n * n) := by ring
      _ ≤ W * (n * n) := h1
  have hWn2 : W * (n * n) ≤ (1 + u) ^ 4 * S := by
    have h1 := mul_le_mul_of_nonneg_right hWu hnn.le
    have h2 : (1 + u) ^ 2 * S * ((inv * n) * (inv * n)) ≤ (1 + u) ^ 2 * S * (1 + u) ^ 2 :=
      mul_le_mul_of_nonneg_left hq2 (mul_nonneg (sq_nonneg _) hv.le)
    calc W * (n * n) ≤ (1 + u) ^ 2 * (S * (inv * inv)) * (n * n) := h1
      _ = (1 + u) ^ 2 * S * ((inv * n) * (inv * n)) := by ring
      _ ≤ (1 + u) ^ 2 * S * (1 + u) ^ 2 := h2
      _ = (1 + u) ^ 4 * S := by ring
  -- n² between (1 - u)⁵ S and (1 + u)⁵ S
  have hnl : (1 - u) ^ 5 * S ≤ n * n := by
    have h1 : (1 - u) ^ 2 * ((1 - u) ^ 3 * S) ≤ (1 - u) ^ 2 * B :=
      mul_le_mul_of_nonneg_left hB.1 (sq_nonneg _)
    calc (1 - u) ^ 5 * S = (1 - u) ^ 2 * ((1 - u) ^ 3 * S) := by ring
      _ ≤ (1 - u) ^ 2 * B := h1
      _ ≤ n * n := hn1
  have hnu : n * n ≤ (1 + u) ^ 5 * S := by
    have h1 : (1 + u) ^ 2 * B ≤ (1 + u) ^ 2 * ((1 + u) ^ 3 * S) :=
      mul_le_mul_of_nonneg_left hB.2 (sq_nonneg _)
    calc n * n ≤ (1 + u) ^ 2 * B := hn2
      _ ≤ (1 + u) ^ 2 * ((1 + u) ^ 3 * S) := h1
      _ = (1 + u) ^ 5 * S := by ring
  constructor
  · have h1 : W * (n * n) ≤ W * ((1 + u) ^ 5 * S) := mul_le_mul_of_nonneg_left hnu hW0
    have h2 : (1 - u) ^ 4 * S ≤ W * (1 + u) ^ 5 * S := by
      calc (1 - u) ^ 4 * S ≤ W * (n * n) := hWn1
        _ ≤ W * ((1 + u) ^ 5 * S) := h1
        _ = W * (1 + u) ^ 5 * S := by ring
    exact le_of_mul_le_mul_right h2 hv
  · have h1 : W * ((1 - u) ^ 5 * S) ≤ W * (n * n) := mul_le_mul_of_nonneg_left hnl hW0
    have h2 : W * (1 - u) ^ 5 * S ≤ (1 + u) ^ 4 * S := by
      calc W * (1 - u) ^ 5 * S = W * ((1 - u) ^ 5 * S) := by ring
        _ ≤ W * (n * n) := h1
        _ ≤ (1 + u) ^ 4 * S := hWn2
    exact le_of_mul_le_mul_right h2 hv

/-- With the relative rounding error `2⁻²⁴` of binary32 the squared length of a
normalized vector is within `2⁻²⁰` of 1. -/
theorem normalize_fl_sq_near_one {F : Type} [LinearOrderedField F] (rnd sqrtf : F → F)
    (hrel : ∀ q, |rnd q - q| ≤ |q| / 2 ^ 24)
    (hsqrt : ∀ q, 0 < q → 0 < sqrtf q ∧ (1 - 1 / 2 ^ 24) ^ 2 * q ≤ sqrtf q * sqrtf q ∧
      sqrtf q * sqrtf q ≤ (1 + 1 / 2 ^ 24) ^ 2 * q)
    (v : Vec3f F) (hv : 0 < v.dot v) :
    |(v.normalize_fl rnd sqrtf).dot (v.normalize_fl rnd sqrtf) - 1| ≤ 1 / 2 ^ 20 := by
  have hrel2 : ∀ q, |rnd q - q| ≤ (1 / 2 ^ 24 : F) * |q| := by
    intro q
    have := hrel q
    calc |rnd q - q| ≤ |q| / 2 ^ 24 := this
      _ = (1 / 2 ^ 24 : F) * |q| := by ring
  have h := normalize_fl_sq_bounds rnd sqrtf (1 / 2 ^ 24) (by positivity)
    (by norm_num) hrel2 hsqrt v hv
  generalize (v.normalize_fl rnd sqrtf).dot (v.normalize_fl rnd sqrtf) = W at h
  obtain ⟨h1, h2⟩ := h
  rw [abs_le]
  constructor
  · have e : (1 - 1 / 2 ^ 20 : F) * (1 + 1 / 2 ^ 24) ^ 5 ≤ (1 - 1 / 2 ^ 24) ^ 4 := by norm_num
    have h3 : (1 - 1 / 2 ^ 20 : F) * (1 + 1 / 2 ^ 24) ^ 5 ≤ W * (1 + 1 / 2 ^ 24) ^ 5 :=
      le_trans e h1
    have := le_of_mul_le_mul_right h3 (by positivity)
    linarith
  · have e : (1 + 1 / 2 ^ 24 : F) ^ 4 ≤ (1 + 1 / 2 ^ 20) * (1 - 1 / 2 ^ 24) ^ 5 := by norm_num
    have h3 : W * (1 - 1 / 2 ^ 24 : F) ^ 5 ≤ (1 + 1 / 2 ^ 20) * (1 - 1 / 2 ^ 24) ^ 5 :=
      le_trans h2 e
    have := le_of_mul_le_mul_right h3 (by norm_num)
    linarith

/-! ## The camera ray in floating point arithmetic -/

/-- A rounding with relative error below 1 keeps a negative number negative. -/
theorem rnd_neg_of_rel {F : Type} [LinearOrderedField F] (rnd : F → F) (p : Nat) (hp : 1 ≤ p)
    (hrel : ∀ q, |rnd q - q| ≤ |q| / 2 ^ p) (q : F) (hq : q < 0) : rnd q < 0 := by
  have h := hrel q
  rw [abs_of_neg hq] at h
  have h2 : -q / 2 ^ p ≤ -q / 2 := by
    apply div_le_div_of_nonneg_left (by linarith) (by norm_num)
    calc (2 : F) = 2 ^ 1 := by norm_num
      _ ≤ 2 ^ p := pow_le_pow_right₀ (by norm_num) hp
  have h3 := (abs_le.mp (le_trans h h2)).2
  linarith

/-- A rounding with relative error below 1 keeps a positive number positive. -/
theorem rnd_pos_of_rel {F : Type} [LinearOrderedField F] (rnd : F → F) (p : Nat) (hp : 1 ≤ p)
    (hrel : ∀ q, |rnd q - q| ≤ |q| / 2 ^ p) (q : F) (hq : 0 < q) : 0 < rnd q := by
  have h := hrel q
  rw [abs_of_pos hq] at h
  have h2 : q / 2 ^ p ≤ q / 2 := by
    apply div_le_div_of_nonneg_left (by linarith) (by norm_num)
    calc (2 : F) = 2 ^ 1 := by norm_num
      _ ≤ 2 ^ p := pow_le_pow_right₀ (by norm_num) hp
  have h3 := (abs_le.mp (le_trans h h2)).1
  linarith

/-- The first two components of the camera vector are computed without
rounding error: they are odd multiples of one half below `2²⁴`. -/
theorem camera_dir_fl_xy {F : Type} [LinearOrderedField F] (rnd32 rnd64 tan : F → F)
    (i j : Nat) (hi : i < width) (hj : j < height)
    (hfix32 : ∀ k : ℤ, |k| < 2 ^ 24 → rnd32 ((k : F) / 2) = (k : F) / 2)
    (hfix64 : ∀ k : ℤ, |k| < 2 ^ 24 → rnd64 ((k : F) / 2) = (k : F) / 2) :
    (camera_dir_fl rnd32 rnd64 tan i j).x = ((i : F) + 1 / 2) - 1050 / 2 ∧
      (camera_dir_fl rnd32 rnd64 tan i j).y = -((j : F) + 1 / 2) + 750 / 2 := by
  unfold width at hi
  unfold height at hj
  have e1 : (i : F) + 1 / 2 = ((2 * (i : ℤ) + 1 : ℤ) : F) / 2 := by push_cast; ring
  have e2 : ((width : Nat) : F) / 2 = ((1050 : ℤ) : F) / 2 := by unfold width; push_cast; ring
  have e3 : ((2 * (i : ℤ) + 1 : ℤ) : F) / 2 - ((1050 : ℤ) : F) / 2 =
      ((2 * (i : ℤ) + 1 - 1050 : ℤ) : F) / 2 := by push_cast; ring
  have e4 : (j : F) + 1 / 2 = ((2 * (j : ℤ) + 1 : ℤ) : F) / 2 := by push_cast; ring
  have e5 : ((height : Nat) : F) / 2 = ((750 : ℤ) : F) / 2 := by unfold height; push_cast; ring
  have e6 : -(((2 * (j : ℤ) + 1 : ℤ) : F) / 2) + ((750 : ℤ) : F) / 2 =
      ((-(2 * (j : ℤ) + 1) + 750 : ℤ) : F) / 2 := by push_cast; ring
  have b : ∀ k : ℤ, -2200 < k → k < 2200 → |k| < 2 ^ 24 := by
    intro k h1 h2
    rw [abs_lt]
    constructor <;> norm_num <;> omega
  constructor
  · show rnd32 (rnd64 (rnd64 ((i : F) + 1 / 2) - rnd64 ((width : F) / 2))) = _
    rw [e1, e2, hfix64 _ (b _ (by omega) (by omega)), hfix64 _ (b _ (by omega) (by omega)), e3,
      hfix64 _ (b _ (by omega) (by omega)), hfix32 _ (b _ (by omega) (by omega))]
    push_cast; ring
  · show rnd32 (rnd64 (-rnd64 ((j : F) + 1 / 2) + rnd64 ((height : F) / 2))) = _
    rw [e4, e5, hfix64 _ (b _ (by omega) (by omega)), hfix64 _ (b _ (by omega) (by omega)), e6,
      hfix64 _ (b _ (by omega) (by omega)), hfix32 _ (b _ (by omega) (by omega))]
    push_cast; ring

/-- C16 (amended): for every pixel `(i, j)` of the 1050×750 grid the camera
vector that `Renderer::render` builds in floating point arithmetic has
`dir_x = (i + 0.5) - 1050 / 2` and `dir_y = -(j + 0.5) + 750 / 2` without
rounding error and `dir_z` the rounded value of `-750 / (2 * tan(1 / 2))`, the
same strictly negative number for every pixel; the vector is not zero, and the
normalized direction that `pixel_color` passes to `cast_ray` has a squared
length within `2⁻²⁰` of 1.  The roundings are assumed to have relative error
at most `2⁻²⁴` (`float`) and `2⁻⁵³` (`double`), to leave multiples of one half
below `2²³` unchanged and `sqrtf` to be within relative error `2⁻²⁴`; `tan`
is assumed positive at `1 / 2`. -/
theorem camera_dir_fl_unit {F : Type} [LinearOrderedField F] (rnd32 rnd64 sqrtf tan : F → F)
    (spheres : List (Sphere F)) (lights : List (Light F))
    (i j : Nat) (hi : i < width) (hj : j < height)
    (h32 : ∀ q, |rnd32 q - q| ≤ |q| / 2 ^ 24)
    (h64 : ∀ q, |rnd64 q - q| ≤ |q| / 2 ^ 53)
    (hfix32 : ∀ k : ℤ, |k| < 2 ^ 24 → rnd32 ((k : F) / 2) = (k : F) / 2)
    (hfix64 : ∀ k : ℤ, |k| < 2 ^ 24 → rnd64 ((k : F) / 2) = (k : F) / 2)
    (hsqrt : ∀ q, 0 < q → 0 < sqrtf q ∧ (1 - 1 / 2 ^ 24) ^ 2 * q ≤ sqrtf q * sqrtf q ∧
      sqrtf q * sqrtf q ≤ (1 + 1 / 2 ^ 24) ^ 2 * q)
    (htan : 0 < tan (1 / 2)) :
    (camera_dir_fl rnd32 rnd64 tan i j).x = ((i : F) + 1 / 2) - 1050 / 2 ∧
      (camera_dir_fl rnd32 rnd64 tan i j).y = -((j : F) + 1 / 2) + 750 / 2 ∧
      (camera_dir_fl rnd32 rnd64 tan i j).z =
        rnd32 (rnd64 (-750 / rnd64 (2 * tan (1 / 2)))) ∧
      (camera_dir_fl rnd32 rnd64 tan i j).z < 0 ∧
      camera_dir_fl rnd32 rnd64 tan i j ≠ ⟨0, 0, 0⟩ ∧
      pixel_color_fl rnd32 rnd64 sqrtf tan spheres lights i j =
        cast_ray_fl rnd32 sqrtf Vec3f.zero
          ((camera_dir_fl rnd32 rnd64 tan i j).normalize_fl rnd32 sqrtf) spheres lights ∧
      |((camera_dir_fl rnd32 rnd64 tan i j).normalize_fl rnd32 sqrtf).dot
          ((camera_dir_fl rnd32 rnd64 tan i j).normalize_fl rnd32 sqrtf) - 1| ≤ 1 / 2 ^ 20 := by
  obtain ⟨hx, hy⟩ := camera_dir_fl_xy rnd32 rnd64 tan i j hi hj hfix32 hfix64
  have hhalf : rnd64 ((fov : F) / 2) = 1 / 2 := by
    have := hfix64 1 (by norm_num)
    unfold fov
    simpa using this
  have hz : (camera_dir_fl rnd32 rnd64 tan i j).z =
      rnd32 (rnd64 (-750 / rnd64 (2 * tan (1 / 2)))) := by
    show rnd32 (rnd64 (-(height : F) / rnd64 (2 * tan (rnd64 (fov / 2))))) = _
    rw [hhalf]
    unfold height
    norm_num
  have hneg : (camera_dir_fl rnd32 rnd64 tan i j).z < 0 := by
    rw [hz]
    apply rnd_neg_of_rel rnd32 24 (by norm_num) h32
    apply rnd_neg_of_rel rnd64 53 (by norm_num) h64
    apply div_neg_of_neg_of_pos (by norm_num)
    apply rnd_pos_of_rel rnd64 53 (by norm_num) h64
    linarith
  have hpos : 0 < (camera_dir_fl rnd32 rnd64 tan i j).dot (camera_dir_fl rnd32 rnd64 tan i j) := by
    unfold Vec3f.dot
    nlinarith [mul_self_nonneg (camera_dir_fl rnd32 rnd64 tan i j).x,
      mul_self_nonneg (camera_dir_fl rnd32 rnd64 tan i j).y, mul_pos_of_neg_of_neg hneg hneg]
  refine ⟨hx, hy, hz, hneg, ?_, rfl, ?_⟩
  · intro h
    rw [h] at hneg
    exact lt_irrefl _ hneg
  · exact normalize_fl_sq_near_one rnd32 sqrtf h32 hsqrt _ hpos

/-- The amended C16 at the pixel in column 525 and row 375, in binary32 and
binary64 arithmetic with `tan(0.5)` replaced by its `double` value. -/
theorem camera_dir_fl_unit_witness :
    (525 < width ∧ 375 < height ∧ (0 : ℚ) < (fun _ => 2460327689692069 / 4503599627370496 : ℚ → ℚ) (1 / 2)) ∧
    ((camera_dir_fl binary32 binary64 (fun _ => 2460327689692069 / 4503599627370496) 525 375).x =
        ((525 : Nat) : ℚ) + 1 / 2 - 1050 / 2 ∧
      (camera_dir_fl binary32 binary64 (fun _ => 2460327689692069 / 4503599627370496) 525 375).y =
        -(((375 : Nat) : ℚ) + 1 / 2) + 750 / 2 ∧
      (camera_dir_fl binary32 binary64 (fun _ => 2460327689692069 / 4503599627370496) 525 375).z =
        binary32 (binary64 (-750 / binary64 (2 * (2460327689692069 / 4503599627370496)))) ∧
      (camera_dir_fl binary32 binary64 (fun _ => 2460327689692069 / 4503599627370496) 525 375).z < 0 ∧
      camera_dir_fl binary32 binary64 (fun _ => 2460327689692069 / 4503599627370496) 525 375 ≠
        ⟨0, 0, 0⟩ ∧
      pixel_color_fl binary32 binary64 sqrt32 (fun _ => 2460327689692069 / 4503599627370496)
          [pink_sphere] [main_light] 525 375 =
        cast_ray_fl binary32 sqrt32 Vec3f.zero
          ((camera_dir_fl binary32 binary64 (fun _ => 2460327689692069 / 4503599627370496)
            525 375).normalize_fl binary32 sqrt32) [pink_sphere] [main_light] ∧
      |((camera_dir_fl binary32 binary64 (fun _ => 2460327689692069 / 4503599627370496)
            525 375).normalize_fl binary32 sqrt32).dot
          ((camera_dir_fl binary32 binary64 (fun _ => 2460327689692069 / 4503599627370496)
            525 375).normalize_fl binary32 sqrt32) - 1| ≤ 1 / 2 ^ 20) :=
  ⟨⟨by decide, by decide, by norm_num⟩,
    camera_dir_fl_unit binary32 binary64 sqrt32 (fun _ => 2460327689692069 / 4503599627370496)
      [pink_sphere] [main_light] 525 375 (by decide) (by decide)
      (round_to_rel 24) (round_to_rel 53)
      (fun k hk => by simpa using binary32_fix_half k hk)
      (fun k hk => by simpa using binary64_fix_half k hk)
      (sqrt_to_spec 24 (by norm_num)) (by norm_num)⟩

/-! ## No binary floating point direction has length exactly 1 -/

/-- The square of an integer is 0 modulo 4 if the integer is even and 1 if it
is odd. -/
theorem sq_mod_four (X : ℤ) :
    (X % 2 = 0 ∧ X * X % 4 = 0) ∨ (X % 2 = 1 ∧ X * X % 4 = 1) := by
  obtain ⟨a, ha⟩ | ⟨a, ha⟩ := Int.even_or_odd X
  · left
    have h : X * X = 4 * (a * a) := by rw [ha]; ring
    constructor <;> omega
  · right
    have h : X * X = 4 * (a * a + a) + 1 := by rw [ha]; ring
    constructor <;> omega

/-- A power of 4 is not the sum of three integer squares two of which are not
zero. -/
theorem three_squares_ne_four_pow (k : Nat) :
    ∀ X Y Z : ℤ, X ≠ 0 → Y ≠ 0 → X * X + Y * Y + Z * Z ≠ 4 ^ k := by
  induction k with
  | zero =>
    intro X Y Z hX hY h
    have h1 := mul_self_pos.mpr hX
    have h2 := mul_self_pos.mpr hY
    have h3 := mul_self_nonneg Z
    simp at h
    linarith
  | succ k ih =>
    intro X Y Z hX hY h
    rw [pow_succ] at h
    generalize (4 : ℤ) ^ k = P at h ih
    have hx := sq_mod_four X
    have hy := sq_mod_four Y
    have hz := sq_mod_four Z
    have hX2 : X % 2 = 0 := by omega
    have hY2 : Y % 2 = 0 := by omega
    have hZ2 : Z % 2 = 0 := by omega
    obtain ⟨a, ha⟩ : ∃ a, X = 2 * a := ⟨X / 2, by omega⟩
    obtain ⟨b, hb⟩ : ∃ b, Y = 2 * b := ⟨Y / 2, by omega⟩
    obtain ⟨c, hc⟩ : ∃ c, Z = 2 * c := ⟨Z / 2, by omega⟩
    subst ha hb hc
    apply ih a b c
    · intro h0; apply hX; rw [h0]; rfl
    · intro h0; apply hY; rw [h0]; rfl
    · have : 4 * (a * a + b * b + c * c) = 4 * P := by linarith
      linarith

/-- A binary fraction `m * 2 ^ e` becomes an integer when multiplied by a
large enough power of 2. -/
theorem dyadic_scale (m e : ℤ) (k : Nat) (hk : 0 ≤ e + k) :
    (m : ℚ) * 2 ^ e * 2 ^ k = ((m * 2 ^ (e + k).toNat : ℤ) : ℚ) := by
  have h1 : ((2 : ℚ) ^ e) * 2 ^ k = 2 ^ (e + k) := by
    rw [zpow_add₀ (by norm_num : (2 : ℚ) ≠ 0)]
    simp
  have h2 : (2 : ℚ) ^ (e + k) = 2 ^ ((e + k).toNat) := by
    obtain ⟨n, hn⟩ := Int.eq_ofNat_of_zero_le hk
    rw [hn, Int.toNat_ofNat, zpow_natCast]
  rw [mul_assoc, h1, h2]
  push_cast
  ring

/-- Three binary fractions two of which are not zero do not have squares that
add up to 1. -/
theorem dyadic_sq_sum_ne_one (m1 m2 m3 e1 e2 e3 : ℤ) (h1 : m1 ≠ 0) (h2 : m2 ≠ 0) :
    ((m1 : ℚ) * 2 ^ e1) * ((m1 : ℚ) * 2 ^ e1) + ((m2 : ℚ) * 2 ^ e2) * ((m2 : ℚ) * 2 ^ e2) +
      ((m3 : ℚ) * 2 ^ e3) * ((m3 : ℚ) * 2 ^ e3) ≠ 1 := by
  intro h
  obtain ⟨k, hk1, hk2, hk3⟩ : ∃ k : Nat, 0 ≤ e1 + k ∧ 0 ≤ e2 + k ∧ 0 ≤ e3 + k :=
    ⟨(Int.toNat (-e1) + Int.toNat (-e2) + Int.toNat (-e3)), by omega, by omega, by omega⟩
  have d1 := dyadic_scale m1 e1 k hk1
  have d2 := dyadic_scale m2 e2 k hk2
  have d3 := dyadic_scale m3 e3 k hk3
  have hq : (((m1 * 2 ^ (e1 + k).toNat : ℤ) : ℚ)) * ((m1 * 2 ^ (e1 + k).toNat : ℤ) : ℚ) +
      ((m2 * 2 ^ (e2 + k).toNat : ℤ) : ℚ) * ((m2 * 2 ^ (e2 + k).toNat : ℤ) : ℚ) +
      ((m3 * 2 ^ (e3 + k).toNat : ℤ) : ℚ) * ((m3 * 2 ^ (e3 + k).toNat : ℤ) : ℚ) =
      (((4 : ℤ) ^ k : ℤ) : ℚ) := by
    rw [← d1, ← d2, ← d3]
    have e4 : (((4 : ℤ) ^ k : ℤ) : ℚ) = (2 : ℚ) ^ k * 2 ^ k := by
      push_cast
      rw [← mul_pow]
      norm_num
    rw [e4]
    linear_combination ((2 : ℚ) ^ k * 2 ^ k) * h
  have hz : (m1 * 2 ^ (e1 + k).toNat) * (m1 * 2 ^ (e1 + k).toNat) +
      (m2 * 2 ^ (e2 + k).toNat) * (m2 * 2 ^ (e2 + k).toNat) +
      (m3 * 2 ^ (e3 + k).toNat) * (m3 * 2 ^ (e3 + k).toNat) = (4 : ℤ) ^ k := by
    exact_mod_cast hq
  exact three_squares_ne_four_pow k _ _ _
    (mul_ne_zero h1 (pow_ne_zero _ (by norm_num)))
    (mul_ne_zero h2 (pow_ne_zero _ (by norm_num))) hz

/-- Every value of `round_to` is a binary fraction. -/
theorem round_to_dyadic (p : Nat) (q : ℚ) : ∃ m e : ℤ, round_to p q = (m : ℚ) * 2 ^ e := by
  unfold round_to
  split_ifs with h0
  · exact ⟨0, 0, by simp⟩
  · exact ⟨_, _, rfl⟩

/-- A rounding with relative error below 1 keeps a non-negative number
non-negative. -/
theorem rnd_nonneg_of_rel {F : Type} [LinearOrderedField F] (rnd : F → F) (p : Nat) (hp : 1 ≤ p)
    (hrel : ∀ q, |rnd q - q| ≤ |q| / 2 ^ p) (q : F) (hq : 0 ≤ q) : 0 ≤ rnd q := by
  rcases eq_or_lt_of_le hq with h | h
  · have h0 := hrel q
    rw [← h] at h0
    simp at h0
    rw [← h, h0]
  · exact le_of_lt (rnd_pos_of_rel rnd p hp hrel q h)

/-- A rounding with relative error below 1 does not round a number other than
zero to zero. -/
theorem rnd_ne_zero_of_rel {F : Type} [LinearOrderedField F] (rnd : F → F) (p : Nat)
    (hp : 1 ≤ p) (hrel : ∀ q, |rnd q - q| ≤ |q| / 2 ^ p) (q : F) (hq : q ≠ 0) : rnd q ≠ 0 := by
  rcases lt_or_gt_of_ne hq with h | h
  · exact ne_of_lt (rnd_neg_of_rel rnd p hp hrel q h)
  · exact ne_of_gt (rnd_pos_of_rel rnd p hp hrel q h)

/-- The squared length that floating point arithmetic computes for a vector
with a first component other than zero is positive. -/
theorem dot_fl_self_pos {F : Type} [LinearOrderedField F] (rnd : F → F) (p : Nat) (hp : 1 ≤ p)
    (hrel : ∀ q, |rnd q - q| ≤ |q| / 2 ^ p) (v : Vec3f F) (hx : v.x ≠ 0) :
    0 < v.dot_fl rnd v := by
  unfold Vec3f.dot_fl
  have h1 : 0 < rnd (v.x * v.x) := rnd_pos_of_rel rnd p hp hrel _ (mul_self_pos.mpr hx)
  have h2 : 0 ≤ rnd (v.y * v.y) := rnd_nonneg_of_rel rnd p hp hrel _ (mul_self_nonneg _)
  have h3 : 0 ≤ rnd (v.z * v.z) := rnd_nonneg_of_rel rnd p hp hrel _ (mul_self_nonneg _)
  have h4 : 0 < rnd (rnd (v.x * v.x) + rnd (v.y * v.y)) :=
    rnd_pos_of_rel rnd p hp hrel _ (by linarith)
  exact rnd_pos_of_rel rnd p hp hrel _ (by linarith)

/-- A vector normalized in binary32 arithmetic whose first two components are
not zero does not have length exactly 1: the squares of three binary
fractions, two of them not zero, do not add up to 1. -/
theorem normalize_fl_binary32_ne_one (v : Vec3f ℚ) (hx : v.x ≠ 0) (hy : v.y ≠ 0) :
    (v.normalize_fl binary32 sqrt32).dot (v.normalize_fl binary32 sqrt32) ≠ 1 := by
  have hrel : ∀ q, |binary32 q - q| ≤ |q| / 2 ^ 24 := round_to_rel 24
  have hB := dot_fl_self_pos binary32 24 (by norm_num) hrel v hx
  have hn : 0 < sqrt32 (v.dot_fl binary32 v) := (sqrt_to_spec 24 (by norm_num) _ hB).1
  have hinv : 0 < binary32 (1 / sqrt32 (v.dot_fl binary32 v)) :=
    rnd_pos_of_rel binary32 24 (by norm_num) hrel _ (one_div_pos.mpr hn)
  have hwx : binary32 (v.x * binary32 (1 / sqrt32 (v.dot_fl binary32 v))) ≠ 0 :=
    rnd_ne_zero_of_rel binary32 24 (by norm_num) hrel _ (mul_ne_zero hx (ne_of_gt hinv))
  have hwy : binary32 (v.y * binary32 (1 / sqrt32 (v.dot_fl binary32 v))) ≠ 0 :=
    rnd_ne_zero_of_rel binary32 24 (by norm_num) hrel _ (mul_ne_zero hy (ne_of_gt hinv))
  have hW : (v.normalize_fl binary32 sqrt32).dot (v.normalize_fl binary32 sqrt32) =
      binary32 (v.x * binary32 (1 / sqrt32 (v.dot_fl binary32 v))) *
          binary32 (v.x * binary32 (1 / sqrt32 (v.dot_fl binary32 v))) +
        binary32 (v.y * binary32 (1 / sqrt32 (v.dot_fl binary32 v))) *
          binary32 (v.y * binary32 (1 / sqrt32 (v.dot_fl binary32 v))) +
        binary32 (v.z * binary32 (1 / sqrt32 (v.dot_fl binary32 v))) *
          binary32 (v.z * binary32 (1 / sqrt32 (v.dot_fl binary32 v))) := rfl
  rw [hW]
  obtain ⟨m1, e1, h1⟩ := round_to_dyadic 24 (v.x * binary32 (1 / sqrt32 (v.dot_fl binary32 v)))
  obtain ⟨m2, e2, h2⟩ := round_to_dyadic 24 (v.y * binary32 (1 / sqrt32 (v.dot_fl binary32 v)))
  obtain ⟨m3, e3, h3⟩ := round_to_dyadic 24 (v.z * binary32 (1 / sqrt32 (v.dot_fl binary32 v)))
  have g1 : binary32 (v.x * binary32 (1 / sqrt32 (v.dot_fl binary32 v))) = (m1 : ℚ) * 2 ^ e1 := h1
  have g2 : binary32 (v.y * binary32 (1 / sqrt32 (v.dot_fl binary32 v))) = (m2 : ℚ) * 2 ^ e2 := h2
  have g3 : binary32 (v.z * binary32 (1 / sqrt32 (v.dot_fl binary32 v))) = (m3 : ℚ) * 2 ^ e3 := h3
  rw [g1] at hwx
  rw [g2] at hwy
  rw [g1, g2, g3]
  apply dyadic_sq_sum_ne_one
  · intro h0; apply hwx; rw [h0]; simp
  · intro h0; apply hwy; rw [h0]; simp

/-- C16 (counterexample): in binary32 arithmetic no pixel of the grid gets a
direction of length exactly 1, whatever value `tan` returns: the first two
components of the camera vector are odd multiples of one half, so the
normalized direction has two components other than zero, and the squares of
three binary fractions of which two are not zero do not add up to 1. -/
theorem camera_dir_fl_not_unit :
    ¬ ∃ (t : ℚ) (i j : Nat), i < width ∧ j < height ∧
      ((camera_dir_fl binary32 binary64 (fun _ => t) i j).normalize_fl binary32 sqrt32).dot
        ((camera_dir_fl binary32 binary64 (fun _ => t) i j).normalize_fl binary32 sqrt32) = 1 := by
  rintro ⟨t, i, j, hi, hj, h⟩
  obtain ⟨hx, hy⟩ := camera_dir_fl_xy binary32 binary64 (fun _ => t) i j hi hj
    (fun k hk => by simpa using binary32_fix_half k hk)
    (fun k hk => by simpa using binary64_fix_half k hk)
  have hx0 : (camera_dir_fl binary32 binary64 (fun _ => t) i j).x ≠ 0 := by
    rw [hx]
    intro h0
    have h1 : ((2 * (i : ℤ) + 1 - 1050 : ℤ) : ℚ) = 0 := by push_cast; linarith
    have h2 : (2 * (i : ℤ) + 1 - 1050 : ℤ) = 0 := by exact_mod_cast h1
    omega
  have hy0 : (camera_dir_fl binary32 binary64 (fun _ => t) i j).y ≠ 0 := by
    rw [hy]
    intro h0
    have h1 : ((2 * (j : ℤ) + 1 - 750 : ℤ) : ℚ) = 0 := by push_cast; linarith
    have h2 : (2 * (j : ℤ) + 1 - 750 : ℤ) = 0 := by exact_mod_cast h1
    omega
  exact normalize_fl_binary32_ne_one _ hx0 hy0 h

end Globs
